import Mathlib

/-!
# Verification of the five-stage encryption pipeline of `encrypt-driver.c`

The driver runs five threads (`readerThread`, `inputCounterThread`,
`encryptorThread`, `outputCounterThread`, `writerThread`) that hand one
character at a time through two circular buffers, synchronised by counting
semaphores, and a reset coordinator (`reset_requested` / `reset_finished`)
that is called from the encryption module.

The embedding is an interleaving transition system.  Every C statement that
touches shared memory, a semaphore or the mutex is one atomic step of its
thread; a thread whose next statement would block (a `sem_wait` on a zero
semaphore, a `pthread_mutex_lock` on a held mutex) or that has left its loop
has no step.  Semaphores are natural-number counters.  The `int` cursors
`input_count` and `output_count` are unbounded natural numbers: they are only
incremented and zeroed, and a run would have to pass 2^31 characters between
two resets to overflow them.  Characters are integers; an assignment to a
`char` variable or buffer cell applies `toChar`.  The semaphore `read_mutex`,
which the program initialises and never uses, is left out.

Besides the variables of the C program the state carries history variables
(the sequences of values read, stored, seen and delivered) that are only
written, never read, by the steps.
-/

namespace EncryptDriver

/-- The end marker `EOF` of `stdio.h`. -/
def EOF : Int := -1

/-- The value an `int` takes when it is stored in a `char` (8 bits, signed, as on
the Linux/x86 targets of the pthread build). -/
def toChar (x : Int) : Int := (x + 128) % 256 - 128

/-- The value an `int` takes when it is stored in a `char` on a target where
plain `char` is unsigned. -/
def toUChar (x : Int) : Int := x % 256

/-- Owner of `reader_lock`. -/
inductive Lock where
  | free
  | reader
  | resetter
  deriving DecidableEq, Repr

/-- The six threads of control: the five stages and the caller of
`reset_requested` / `reset_finished`. -/
inductive Thread where
  | reader
  | inputCounter
  | encryptor
  | outputCounter
  | writer
  | reset
  deriving DecidableEq, Repr

/-- Run parameters fixed before the threads start: the buffer sizes `n` and `m`
read by `main`, and the `encrypt` function of the encryption module. -/
structure Config where
  n : Nat
  m : Nat
  encrypt : Int → Int

/-- Global variables of `encrypt-driver.c`, the local `c` and the program counter of
every thread, the unread part of the input file, and the history variables. -/
structure State where
  /-- characters `read_input` has not returned yet -/
  input : List Int
  input_count : Nat
  output_count : Nat
  input_buffer : Nat → Int
  output_buffer : Nat → Int
  input_mutex : Nat
  encrypt_mutex : Nat
  output_mutex : Nat
  write_mutex : Nat
  input_finished_mutex : Nat
  encrypt_finished_mutex : Nat
  output_finished_mutex : Nat
  write_finished_mutex : Nat
  input_signal : Nat
  encrypt_signal : Nat
  output_signal : Nat
  write_signal : Nat
  reader_lock : Lock
  /-- program counter and local `c` of `readerThread` -/
  rpc : Nat
  rc : Int
  /-- program counter and local `c` of `inputCounterThread` -/
  ipc : Nat
  ic : Int
  /-- program counter and local `c` of `encryptorThread` -/
  epc : Nat
  ec : Int
  /-- program counter and local `c` of `outputCounterThread` -/
  opc : Nat
  oc : Int
  /-- program counter and local `c` of `writerThread` -/
  wpc : Nat
  wc : Int
  /-- program counter of the reset coordinator -/
  xpc : Nat
  /-- history: values assigned to the reader's `c` by `c = read_input()` -/
  reads : List Int
  /-- history: values stored into `input_buffer` -/
  istored : List Int
  /-- history: values `inputCounterThread` read from `input_buffer` -/
  iseen : List Int
  /-- history: values `encryptorThread` read from `input_buffer` -/
  eseen : List Int
  /-- history: arguments of the calls of `encrypt` -/
  encrypted : List Int
  /-- history: values stored into `output_buffer` -/
  ostored : List Int
  /-- history: values `outputCounterThread` read from `output_buffer` -/
  oseen : List Int
  /-- history: values `writerThread` read from `output_buffer` -/
  wseen : List Int
  /-- history: arguments of the calls of `count_input` -/
  counted_in : List Int
  /-- history: arguments of the calls of `count_output` -/
  counted_out : List Int
  /-- history: arguments of the calls of `write_output` -/
  written : List Int
  /-- history: for every call of `log_counts`, the number of `count_input` and
  `count_output` calls made before it -/
  logs : List (Nat × Nat)

/-- The module function `read_input`: the next character of the file, or `EOF` once the
file is exhausted (and on every later call). -/
def read_input (input : List Int) : Int × List Int :=
  match input with
  | [] => (EOF, [])
  | x :: xs => (x, xs)

/-- State in which `main` creates the threads: cursors and semaphores zero, mutex free,
every thread at the top of its loop.  The contents of the two `malloc`ed buffers and of the
uninitialised locals are arbitrary.  The four reset signals are never passed to `sem_init`;
as zero-initialised globals they start at 0. -/
def init (input : List Int) (ib ob : Nat → Int) (c0 : Int) : State :=
  { input := input, input_count := 0, output_count := 0,
    input_buffer := ib, output_buffer := ob,
    input_mutex := 0, encrypt_mutex := 0, output_mutex := 0, write_mutex := 0,
    input_finished_mutex := 0, encrypt_finished_mutex := 0,
    output_finished_mutex := 0, write_finished_mutex := 0,
    input_signal := 0, encrypt_signal := 0, output_signal := 0, write_signal := 0,
    reader_lock := Lock.free,
    rpc := 0, rc := c0, ipc := 0, ic := c0, epc := 0, ec := c0,
    opc := 0, oc := c0, wpc := 0, wc := c0, xpc := 0,
    reads := [], istored := [], iseen := [], eseen := [], encrypted := [],
    ostored := [], oseen := [], wseen := [],
    counted_in := [], counted_out := [], written := [], logs := [] }

/-- One step of `readerThread` (lines 44-65).  Program counters:
0 `pthread_mutex_lock`, 1 `c = read_input()`, 2 store into `input_buffer`,
3 `sem_post(&input_mutex)`, 4 `sem_post(&encrypt_mutex)`,
5 `sem_wait(&input_finished_mutex)`, 6 `sem_wait(&encrypt_finished_mutex)`,
7 `input_count++`, 8 `pthread_mutex_unlock` and the loop test, 9 returned. -/
def readerThread (cfg : Config) (s : State) : Option State :=
  match s.rpc with
  | 0 => if s.reader_lock = Lock.free then
      some { s with reader_lock := Lock.reader, rpc := 1 } else none
  | 1 => some { s with rc := toChar (read_input s.input).1, input := (read_input s.input).2,
                       reads := s.reads ++ [toChar (read_input s.input).1], rpc := 2 }
  | 2 => some { s with
      input_buffer := Function.update s.input_buffer (s.input_count % cfg.n) s.rc,
      istored := s.istored ++ [s.rc], rpc := 3 }
  | 3 => some { s with input_mutex := s.input_mutex + 1, rpc := 4 }
  | 4 => some { s with encrypt_mutex := s.encrypt_mutex + 1, rpc := 5 }
  | 5 => if 0 < s.input_finished_mutex then
      some { s with input_finished_mutex := s.input_finished_mutex - 1, rpc := 6 } else none
  | 6 => if 0 < s.encrypt_finished_mutex then
      some { s with encrypt_finished_mutex := s.encrypt_finished_mutex - 1, rpc := 7 } else none
  | 7 => some { s with input_count := s.input_count + 1, rpc := 8 }
  | 8 => if s.rc ≠ EOF then some { s with reader_lock := Lock.free, rpc := 0 }
      else some { s with reader_lock := Lock.free, rpc := 9 }
  | _ => none

/-- One step of `inputCounterThread` (lines 68-79).  Program counters:
0 `sem_wait(&input_mutex)`, 1 read of `input_buffer`, 2 `sem_post(&input_finished_mutex)`,
3 `sem_post(&input_signal)`, 4 the guarded `count_input(c)` and the loop test, 5 returned. -/
def inputCounterThread (cfg : Config) (s : State) : Option State :=
  match s.ipc with
  | 0 => if 0 < s.input_mutex then
      some { s with input_mutex := s.input_mutex - 1, ipc := 1 } else none
  | 1 => some { s with ic := s.input_buffer (s.input_count % cfg.n),
                       iseen := s.iseen ++ [s.input_buffer (s.input_count % cfg.n)], ipc := 2 }
  | 2 => some { s with input_finished_mutex := s.input_finished_mutex + 1, ipc := 3 }
  | 3 => some { s with input_signal := s.input_signal + 1, ipc := 4 }
  | 4 => if s.ic ≠ EOF then some { s with counted_in := s.counted_in ++ [s.ic], ipc := 0 }
      else some { s with ipc := 5 }
  | _ => none

/-- One step of `encryptorThread` (lines 82-106).  Program counters:
0 `sem_wait(&encrypt_mutex)`, 1 read of `input_buffer`, 2 `sem_post(&encrypt_finished_mutex)`,
3 store into `output_buffer` (calling `encrypt` unless `c` is `EOF`),
4 `sem_post(&output_mutex)`, 5 `sem_post(&write_mutex)`, 6 `sem_post(&encrypt_signal)`,
7 `sem_wait(&output_finished_mutex)`, 8 `sem_wait(&write_finished_mutex)`,
9 `output_count++` and the loop test, 10 returned. -/
def encryptorThread (cfg : Config) (s : State) : Option State :=
  match s.epc with
  | 0 => if 0 < s.encrypt_mutex then
      some { s with encrypt_mutex := s.encrypt_mutex - 1, epc := 1 } else none
  | 1 => some { s with ec := s.input_buffer (s.input_count % cfg.n),
                       eseen := s.eseen ++ [s.input_buffer (s.input_count % cfg.n)], epc := 2 }
  | 2 => some { s with encrypt_finished_mutex := s.encrypt_finished_mutex + 1, epc := 3 }
  | 3 => if s.ec ≠ EOF then
      some { s with
        output_buffer := Function.update s.output_buffer (s.output_count % cfg.m)
          (toChar (cfg.encrypt s.ec)),
        encrypted := s.encrypted ++ [s.ec],
        ostored := s.ostored ++ [toChar (cfg.encrypt s.ec)], epc := 4 }
      else
      some { s with
        output_buffer := Function.update s.output_buffer (s.output_count % cfg.m) s.ec,
        ostored := s.ostored ++ [s.ec], epc := 4 }
  | 4 => some { s with output_mutex := s.output_mutex + 1, epc := 5 }
  | 5 => some { s with write_mutex := s.write_mutex + 1, epc := 6 }
  | 6 => some { s with encrypt_signal := s.encrypt_signal + 1, epc := 7 }
  | 7 => if 0 < s.output_finished_mutex then
      some { s with output_finished_mutex := s.output_finished_mutex - 1, epc := 8 } else none
  | 8 => if 0 < s.write_finished_mutex then
      some { s with write_finished_mutex := s.write_finished_mutex - 1, epc := 9 } else none
  | 9 => if s.ec ≠ EOF then some { s with output_count := s.output_count + 1, epc := 0 }
      else some { s with output_count := s.output_count + 1, epc := 10 }
  | _ => none

/-- One step of `outputCounterThread` (lines 109-121).  Program counters:
0 `sem_wait(&output_mutex)`, 1 read of `output_buffer`, 2 `sem_post(&output_finished_mutex)`,
3 `sem_post(&output_signal)`, 4 the guarded `count_output(c)` and the loop test, 5 returned. -/
def outputCounterThread (cfg : Config) (s : State) : Option State :=
  match s.opc with
  | 0 => if 0 < s.output_mutex then
      some { s with output_mutex := s.output_mutex - 1, opc := 1 } else none
  | 1 => some { s with oc := s.output_buffer (s.output_count % cfg.m),
                       oseen := s.oseen ++ [s.output_buffer (s.output_count % cfg.m)], opc := 2 }
  | 2 => some { s with output_finished_mutex := s.output_finished_mutex + 1, opc := 3 }
  | 3 => some { s with output_signal := s.output_signal + 1, opc := 4 }
  | 4 => if s.oc ≠ EOF then some { s with counted_out := s.counted_out ++ [s.oc], opc := 0 }
      else some { s with opc := 5 }
  | _ => none

/-- One step of `writerThread` (lines 124-138).  Program counters:
0 `sem_wait(&write_mutex)`, 1 read of `output_buffer`, 2 `sem_post(&write_finished_mutex)`,
3 `sem_post(&write_signal)`, 4 the guarded `write_output(c)` and the loop test, 5 returned. -/
def writerThread (cfg : Config) (s : State) : Option State :=
  match s.wpc with
  | 0 => if 0 < s.write_mutex then
      some { s with write_mutex := s.write_mutex - 1, wpc := 1 } else none
  | 1 => some { s with wc := s.output_buffer (s.output_count % cfg.m),
                       wseen := s.wseen ++ [s.output_buffer (s.output_count % cfg.m)], wpc := 2 }
  | 2 => some { s with write_finished_mutex := s.write_finished_mutex + 1, wpc := 3 }
  | 3 => some { s with write_signal := s.write_signal + 1, wpc := 4 }
  | 4 => if s.wc ≠ EOF then some { s with written := s.written ++ [s.wc], wpc := 0 }
      else some { s with wpc := 5 }
  | _ => none

/-- One step of `reset_requested` (lines 141-150).  Program counters of the coordinator:
0 `pthread_mutex_lock(&reader_lock)`, 1 `sem_wait(&input_signal)`,
2 `sem_wait(&encrypt_signal)`, 3 `sem_wait(&output_signal)`, 4 `sem_wait(&write_signal)`,
5 `input_count = 0`, 6 `output_count = 0`, 7 `log_counts()`, 8 returned to the caller. -/
def reset_requested (s : State) : Option State :=
  match s.xpc with
  | 0 => if s.reader_lock = Lock.free then
      some { s with reader_lock := Lock.resetter, xpc := 1 } else none
  | 1 => if 0 < s.input_signal then
      some { s with input_signal := s.input_signal - 1, xpc := 2 } else none
  | 2 => if 0 < s.encrypt_signal then
      some { s with encrypt_signal := s.encrypt_signal - 1, xpc := 3 } else none
  | 3 => if 0 < s.output_signal then
      some { s with output_signal := s.output_signal - 1, xpc := 4 } else none
  | 4 => if 0 < s.write_signal then
      some { s with write_signal := s.write_signal - 1, xpc := 5 } else none
  | 5 => some { s with input_count := 0, xpc := 6 }
  | 6 => some { s with output_count := 0, xpc := 7 }
  | 7 => some { s with logs := s.logs ++ [(s.counted_in.length, s.counted_out.length)],
                       xpc := 8 }
  | _ => none

/-- The single statement of `reset_finished` (lines 153-155), run by the coordinator after
`reset_requested` has returned (program counter 8): `pthread_mutex_unlock(&reader_lock)`. -/
def reset_finished (s : State) : Option State :=
  match s.xpc with
  | 8 => some { s with reader_lock := Lock.free, xpc := 0 }
  | _ => none

/-- One step of the reset coordinator: inside `reset_requested` until it returns, then
`reset_finished`. -/
def resetThread (s : State) : Option State :=
  if s.xpc = 8 then reset_finished s else reset_requested s

/-- One atomic step of thread `t`; `none` when `t` is blocked or has returned. -/
def step (cfg : Config) (t : Thread) (s : State) : Option State :=
  match t with
  | Thread.reader => readerThread cfg s
  | Thread.inputCounter => inputCounterThread cfg s
  | Thread.encryptor => encryptorThread cfg s
  | Thread.outputCounter => outputCounterThread cfg s
  | Thread.writer => writerThread cfg s
  | Thread.reset => resetThread s

/-- Run a schedule: the threads named in the list take one step each, in order; a thread
that cannot step when its turn comes is skipped. -/
def exec (cfg : Config) (sched : List Thread) (s : State) : State :=
  match sched with
  | [] => s
  | t :: ts => exec cfg ts ((step cfg t s).getD s)

/-- Run a schedule strictly: as `exec`, but `none` as soon as the thread whose turn it is
cannot step. -/
def run (cfg : Config) (sched : List Thread) (s : State) : Option State :=
  match sched with
  | [] => some s
  | t :: ts => (step cfg t s).bind (run cfg ts)

/-- States reachable from `s0`.  With `resets = false` only the five stages run (no call
of `reset_requested` is ever made); with `resets = true` the coordinator may step too. -/
inductive Reach (cfg : Config) (resets : Bool) (s0 : State) : State → Prop where
  | start : Reach cfg resets s0 s0
  | next (t : Thread) (s s' : State) :
      Reach cfg resets s0 s → (t = Thread.reset → resets = true) →
      step cfg t s = some s' → Reach cfg resets s0 s'

/-- All five stages have left their loops. -/
def allDone (s : State) : Prop :=
  s.rpc = 9 ∧ s.ipc = 5 ∧ s.epc = 10 ∧ s.opc = 5 ∧ s.wpc = 5

instance (s : State) : Decidable (allDone s) := by
  unfold allDone; infer_instance

/-- Indicator of a program-counter range: `1` when `a ≤ pc ≤ b`, else `0`. -/
def rng (a b pc : Nat) : Nat := if a ≤ pc ∧ pc ≤ b then 1 else 0

/-- Handshake and program-counter invariant.  Each "slot ready" / "slot released" semaphore
pair carries at most one token per producer cycle: the token is in the ready semaphore, held
by the consumer (between its `sem_wait` and its `sem_post`), or in the released semaphore,
exactly while the producer is between its post and its wait. -/
structure InvH (s : State) : Prop where
  rpc_le : s.rpc ≤ 9
  ipc_le : s.ipc ≤ 5
  epc_le : s.epc ≤ 10
  opc_le : s.opc ≤ 5
  wpc_le : s.wpc ≤ 5
  xpc_le : s.xpc ≤ 8
  h_in : s.input_mutex + rng 1 2 s.ipc + s.input_finished_mutex = rng 4 5 s.rpc
  h_en : s.encrypt_mutex + rng 1 2 s.epc + s.encrypt_finished_mutex = rng 5 6 s.rpc
  h_out : s.output_mutex + rng 1 2 s.opc + s.output_finished_mutex = rng 5 7 s.epc
  h_wr : s.write_mutex + rng 1 2 s.wpc + s.write_finished_mutex = rng 6 8 s.epc

/-- Counting invariant: how many values each stage has read, stored or seen, in terms of the
program counters and the ready semaphores. -/
structure InvLen (s : State) : Prop where
  l_rd : s.istored.length + rng 2 2 s.rpc = s.reads.length
  l_i : s.iseen.length + rng 1 1 s.ipc + s.input_mutex + rng 3 3 s.rpc = s.istored.length
  l_e : s.eseen.length + rng 1 1 s.epc + s.encrypt_mutex + rng 3 4 s.rpc = s.istored.length
  l_st : s.ostored.length + rng 2 3 s.epc = s.eseen.length
  l_o : s.oseen.length + rng 1 1 s.opc + s.output_mutex + rng 4 4 s.epc = s.ostored.length
  l_w : s.wseen.length + rng 1 1 s.wpc + s.write_mutex + rng 4 5 s.epc = s.ostored.length

/-- Accounting of the four reset signals: every iteration of a consuming stage posts its
signal once, every call of `reset_requested` takes one of each (`logs.length` calls have
completed, a call in progress has taken those it has passed). -/
structure InvSig (s : State) : Prop where
  s_i : s.input_signal + rng 2 3 s.ipc + s.logs.length + rng 2 7 s.xpc = s.iseen.length
  s_e : s.encrypt_signal + rng 2 6 s.epc + s.logs.length + rng 3 7 s.xpc = s.eseen.length
  s_o : s.output_signal + rng 2 3 s.opc + s.logs.length + rng 4 7 s.xpc = s.oseen.length
  s_w : s.write_signal + rng 2 3 s.wpc + s.logs.length + rng 5 7 s.xpc = s.wseen.length

/-- The mutex `reader_lock` is held by the reader exactly inside its critical section and by
the coordinator exactly from the lock in `reset_requested` to the unlock in
`reset_finished`. -/
structure InvL (s : State) : Prop where
  lock_r : s.reader_lock = Lock.reader ↔ (1 ≤ s.rpc ∧ s.rpc ≤ 8)
  lock_x : s.reader_lock = Lock.resetter ↔ (1 ≤ s.xpc ∧ s.xpc ≤ 8)

/-- What a consuming stage at program counter `pc` with local `c` has read but not yet
passed to its collaborator: the current `c` while it is between the read and the loop test
(program counters 2 to 4), the end marker once it has returned (5), nothing otherwise. -/
def tail5 (pc : Nat) (c : Int) : List Int :=
  if 2 ≤ pc ∧ pc ≤ 4 then [c] else if pc = 5 then [EOF] else []

/-- Data invariant relating the histories: what each stage has seen is a prefix of what its
producer stored, and what it has delivered is what it has seen minus the value in flight
and the end marker. -/
structure InvB (cfg : Config) (s : State) : Prop where
  r_st : s.reads = s.istored ++ (if s.rpc = 2 then [s.rc] else [])
  r_a : s.rpc ≤ 1 → ∀ x ∈ s.reads, x ≠ EOF
  r_b : 2 ≤ s.rpc → s.reads.getLast? = some s.rc ∧ ∀ x ∈ s.reads.dropLast, x ≠ EOF
  r_9 : s.rpc = 9 → s.rc = EOF
  d_in : 3 ≤ s.rpc → s.rpc ≤ 7 →
    s.istored.getLast? = some (s.input_buffer (s.input_count % cfg.n))
  i_pre : s.iseen <+: s.istored
  i_c : s.iseen = s.counted_in ++ tail5 s.ipc s.ic
  i_n : ∀ x ∈ s.counted_in, x ≠ EOF
  e_pre : s.eseen <+: s.istored
  e_c : s.eseen = s.encrypted ++
    (if s.epc = 2 ∨ s.epc = 3 ∨ (4 ≤ s.epc ∧ s.ec = EOF) then [s.ec] else [])
  e_n : ∀ x ∈ s.encrypted, x ≠ EOF
  e_10 : s.epc = 10 → s.ec = EOF
  e_o : s.ostored = s.encrypted.map (fun c => toChar (cfg.encrypt c)) ++
    (if 4 ≤ s.epc ∧ s.ec = EOF then [EOF] else [])
  o_c : s.oseen = s.counted_out ++ tail5 s.opc s.oc
  o_n : ∀ x ∈ s.counted_out, x ≠ EOF
  w_c : s.wseen = s.written ++ tail5 s.wpc s.wc
  w_n : ∀ x ∈ s.written, x ≠ EOF

/-- Relation between the reader's history and the input file `input0` the run started with:
either the values read so far followed by the unread characters are the file, or the file is
exhausted and the last value read is the end marker. -/
def InvR (input0 : List Int) (s : State) : Prop :=
  (s.reads ++ s.input.map toChar = input0.map toChar) ∨
  (s.input = [] ∧ s.reads = input0.map toChar ++ [EOF] ∧ 2 ≤ s.rpc ∧ s.rc = EOF)

/-- Invariant of the runs in which `reset_requested` is never called: the coordinator stays
idle, the slot the encryptor stored into is the slot `output_count` designates until the
encryptor advances the cursor, and both output consumers have seen a prefix of what was
stored. -/
structure InvN (cfg : Config) (s : State) : Prop where
  n_x : s.xpc = 0
  n_log : s.logs = []
  d_out : 4 ≤ s.epc → s.epc ≤ 9 →
    s.ostored.getLast? = some (s.output_buffer (s.output_count % cfg.m))
  o_pre : s.oseen <+: s.ostored
  w_pre : s.wseen <+: s.ostored

/-- All invariants of the general system (resets allowed). -/
structure AllInv (cfg : Config) (input0 : List Int) (s : State) : Prop where
  hH : InvH s
  hLen : InvLen s
  hSig : InvSig s
  hL : InvL s
  hB : InvB cfg s
  hR : InvR input0 s

/-- The real characters of a sequence of values: everything but end markers. -/
def realChars (l : List Int) : List Int := l.filter (fun c => c ≠ EOF)

/-- A whole call of `reset_requested` run without interleaving: `k` consecutive statements of
the coordinator; `none` if one of them blocks. -/
def resetCall : Nat → State → Option State
  | 0, s => some s
  | k + 1, s => (reset_requested s).bind (resetCall k)

/-- Weight of a program counter of `readerThread` in the termination measure. -/
def wR (pc : Nat) : Nat := if pc = 0 then 2 else if pc = 1 then 1 else if pc ≤ 8 then 11 - pc else 0

/-- Weight of a program counter of a consuming stage (`inputCounterThread`,
`outputCounterThread`, `writerThread`) in the termination measure. -/
def wC (pc : Nat) : Nat := if pc = 0 then 2 else if pc = 1 then 1 else if pc ≤ 4 then 7 - pc else 0

/-- Weight of a program counter of `encryptorThread` in the termination measure. -/
def wE (pc : Nat) : Nat := if pc = 0 then 2 else if pc = 1 then 1 else if pc ≤ 9 then 12 - pc else 0

/-- Termination measure of a run on a file of `len` characters: for every stage the number
of values it has still to read (out of `len + 1`), weighted by the length of its loop body,
plus the distance to the end of the current iteration. -/
def measure (len : Nat) (s : State) : Nat :=
  9 * (len + 1 - s.reads.length) + wR s.rpc +
  5 * (len + 1 - s.iseen.length) + wC s.ipc +
  10 * (len + 1 - s.eseen.length) + wE s.epc +
  5 * (len + 1 - s.oseen.length) + wC s.opc +
  5 * (len + 1 - s.wseen.length) + wC s.wpc

/-- The scenario of the specification: buffer sizes 2 and 2, `encrypt` adds one to the
character code. -/
def addOne : Config := { n := 2, m := 2, encrypt := fun x => x + 1 }

/-- As `addOne`, with an input buffer of one slot. -/
def addOne12 : Config := { n := 1, m := 2, encrypt := fun x => x + 1 }

/-- Initial state for the file `"AB"`, buffers and locals zeroed. -/
def initAB : State := init [65, 66] (fun _ => 0) (fun _ => 0) 0

/-- The schedule of `k` consecutive steps of thread `t`. -/
def steps (k : Nat) (t : Thread) : List Thread := List.replicate k t

/-- One step of each stage in turn, `k` times over. -/
def roundRobin : Nat → List Thread
  | 0 => []
  | k + 1 => [Thread.reader, Thread.inputCounter, Thread.encryptor, Thread.outputCounter,
      Thread.writer] ++ roundRobin k

/-- The run of `"AB"` to completion under the round-robin schedule, without reset. -/
def finAB : State := exec addOne (roundRobin 35) initAB

/-- A schedule that takes the first character through one whole cycle of every stage, each
stage running to the end of its iteration before the next one starts. -/
def cycle1 : List Thread :=
  steps 5 Thread.reader ++ steps 5 Thread.inputCounter ++ steps 7 Thread.encryptor ++
  steps 5 Thread.outputCounter ++ steps 5 Thread.writer ++ steps 3 Thread.encryptor ++
  steps 4 Thread.reader

/-- State of the run of `"AB"` when the reader is about to increment `input_count` in its
first cycle. -/
def midAB : State := exec addOne (roundRobin 8) initAB

/-- The run of `"AB"` with one reset (`reset_requested` then `reset_finished`) between the
first and the second cycle, to completion. -/
def resetAB : State :=
  exec addOne (cycle1 ++ steps 9 Thread.reset ++ roundRobin 30) initAB

/-- State of the run of `"AB"` in which the coordinator, called after the first cycle, has
passed its four waits and holds `reader_lock`. -/
def heldAB : State := exec addOne (cycle1 ++ steps 5 Thread.reset) initAB

/-- A schedule on which a reset lands between the encryptor's store of the second result and
the writer's read: the first cycle completes, the reader completes its second cycle as soon
as both input consumers have released the slot, the encryptor stores and announces the
second result, the coordinator runs up to and including `output_count = 0`, and then the
stages run on. -/
def raceSched : List Thread :=
  cycle1 ++ steps 5 Thread.reader ++ steps 5 Thread.inputCounter ++
  steps 3 Thread.encryptor ++ steps 4 Thread.reader ++ steps 4 Thread.encryptor ++
  steps 7 Thread.reset ++ steps 5 Thread.writer ++ steps 5 Thread.outputCounter

/-- A schedule on which the coordinator passes its four waits while no consuming stage has
finished its iteration: every consuming stage stops right after posting its reset signal. -/
def earlySched : List Thread :=
  steps 5 Thread.reader ++ steps 4 Thread.inputCounter ++ steps 7 Thread.encryptor ++
  steps 4 Thread.outputCounter ++ steps 4 Thread.writer ++ steps 4 Thread.reader ++
  steps 5 Thread.reset

/-- State after a call of `reset_requested` made before the reader's first cycle. -/
def hungAB : State := exec addOne [Thread.reset] initAB

/-- The run of the two-byte file `0xFF 'B'` to quiescence under the round-robin schedule. -/
def finFF : State := exec addOne (roundRobin 30) (init [255, 66] (fun _ => 0) (fun _ => 0) 0)

/-- Buffer sizes 2 and 2 and an `encrypt` that tells a negative argument from a byte value:
65 for the former, 66 for the latter. -/
def signEnc : Config := { n := 2, m := 2, encrypt := fun x => if x < 0 then 65 else 66 }

/-- The run of the one-byte file `0xC8` (200) with `signEnc` to completion under the
round-robin schedule. -/
def fin200 : State := exec signEnc (roundRobin 30) (init [200] (fun _ => 0) (fun _ => 0) 0)

/-- The run of the one-byte file `0xFE` (254) with `addOne` to quiescence under the
round-robin schedule. -/
def fin254 : State := exec addOne (roundRobin 30) (init [254] (fun _ => 0) (fun _ => 0) 0)

/-- Buffer sizes 2 and 2 and an `encrypt` whose result is always the byte 255. -/
def const255 : Config := { n := 2, m := 2, encrypt := fun _ => 255 }

/-- The run of `"AB"` with `const255` to quiescence under the round-robin schedule. -/
def fin255 : State := exec const255 (roundRobin 40) initAB

/-! ## Theorems -/

theorem rng_lit (a b n : Nat) :
    rng a b (no_index (OfNat.ofNat n)) =
      if a ≤ OfNat.ofNat n ∧ OfNat.ofNat n ≤ b then 1 else 0 :=
  rfl

theorem rng_spec (a b pc : Nat) :
    (rng a b pc = 1 ∧ a ≤ pc ∧ pc ≤ b) ∨ (rng a b pc = 0 ∧ (pc < a ∨ b < pc)) := by
  unfold rng; split_ifs <;> omega

theorem rng_le_one (a b pc : Nat) : rng a b pc ≤ 1 := by
  unfold rng; split_ifs <;> omega

set_option maxHeartbeats 4000000 in
theorem invH_step (cfg : Config) (t : Thread) (s s' : State) (h : step cfg t s = some s')
    (hi : InvH s) : InvH s' := by
  obtain ⟨h1, h2, h3, h4, h5, h6, h7, h8, h9, h10⟩ := hi
  cases t
  case reset =>
    simp only [step, resetThread, reset_requested, reset_finished] at h
    split at h <;> split at h <;> rename_i e <;> (try split at h) <;> simp at h <;> subst h <;>
    simp only [e, rng_lit, Nat.reduceLeDiff, and_self, and_true, and_false, true_and, false_and,
      reduceIte] at * <;>
    constructor <;> dsimp only <;>
    (try simp only [rng_lit, Nat.reduceLeDiff, and_self, and_true, and_false, true_and,
      false_and, reduceIte]) <;> omega
  all_goals
    simp only [step, readerThread, inputCounterThread, encryptorThread, outputCounterThread,
      writerThread] at h
    split at h <;> rename_i e <;> (try split at h) <;> simp at h <;> subst h <;>
    simp only [e, rng_lit, Nat.reduceLeDiff, and_self, and_true, and_false, true_and, false_and,
      reduceIte] at * <;>
    constructor <;> dsimp only <;>
    (try simp only [rng_lit, Nat.reduceLeDiff, and_self, and_true, and_false, true_and,
      false_and, reduceIte]) <;> omega

set_option maxHeartbeats 4000000 in
theorem invLen_step (cfg : Config) (t : Thread) (s s' : State) (h : step cfg t s = some s')
    (hi : InvLen s) : InvLen s' := by
  obtain ⟨h1, h2, h3, h4, h5, h6⟩ := hi
  cases t
  case reset =>
    simp only [step, resetThread, reset_requested, reset_finished] at h
    split at h <;> split at h <;> rename_i e <;> (try split at h) <;> simp at h <;> subst h <;>
    constructor <;> assumption
  all_goals
    simp only [step, readerThread, inputCounterThread, encryptorThread, outputCounterThread,
      writerThread] at h
    split at h <;> rename_i e <;> (try split at h) <;> simp at h <;> subst h <;>
    simp only [e, rng_lit, Nat.reduceLeDiff, and_self, and_true, and_false, true_and, false_and,
      reduceIte] at * <;>
    constructor <;> dsimp only <;>
    (try simp only [rng_lit, Nat.reduceLeDiff, and_self, and_true, and_false, true_and,
      false_and, reduceIte, List.length_append, List.length_singleton]) <;> omega

set_option maxHeartbeats 4000000 in
theorem invSig_step (cfg : Config) (t : Thread) (s s' : State) (h : step cfg t s = some s')
    (hi : InvSig s) : InvSig s' := by
  obtain ⟨h1, h2, h3, h4⟩ := hi
  cases t
  case reset =>
    simp only [step, resetThread, reset_requested, reset_finished] at h
    split at h <;> split at h <;> rename_i e <;> (try split at h) <;> simp at h <;> subst h <;>
    simp only [e, rng_lit, Nat.reduceLeDiff, and_self, and_true, and_false, true_and, false_and,
      reduceIte] at * <;>
    constructor <;> dsimp only <;>
    (try simp only [rng_lit, Nat.reduceLeDiff, and_self, and_true, and_false, true_and,
      false_and, reduceIte, List.length_append, List.length_singleton]) <;> omega
  all_goals
    simp only [step, readerThread, inputCounterThread, encryptorThread, outputCounterThread,
      writerThread] at h
    split at h <;> rename_i e <;> (try split at h) <;> simp at h <;> subst h <;>
    simp only [e, rng_lit, Nat.reduceLeDiff, and_self, and_true, and_false, true_and, false_and,
      reduceIte] at * <;>
    constructor <;> dsimp only <;>
    (try simp only [rng_lit, Nat.reduceLeDiff, and_self, and_true, and_false, true_and,
      false_and, reduceIte, List.length_append, List.length_singleton]) <;> omega

theorem invL_step (cfg : Config) (t : Thread) (s s' : State) (h : step cfg t s = some s')
    (hi : InvL s) : InvL s' := by
  obtain ⟨h1, h2⟩ := hi
  cases t
  case reset =>
    simp only [step, resetThread, reset_requested, reset_finished] at h
    split at h <;> split at h <;> rename_i e <;> (try split at h) <;> simp at h <;> subst h <;>
    constructor <;> simp_all
  all_goals
    simp only [step, readerThread, inputCounterThread, encryptorThread, outputCounterThread,
      writerThread] at h
    split at h <;> rename_i e <;> (try split at h) <;> simp at h <;> subst h <;>
    constructor <;> simp_all

theorem InvL.excl {s : State} (h : InvL s) :
    ¬ (1 ≤ s.rpc ∧ s.rpc ≤ 8 ∧ 1 ≤ s.xpc ∧ s.xpc ≤ 8) := by
  intro ⟨a, b, c, d⟩
  have h1 := h.lock_r.mpr ⟨a, b⟩
  have h2 := h.lock_x.mpr ⟨c, d⟩
  rw [h1] at h2
  exact Lock.noConfusion h2

theorem invH_init (input : List Int) (ib ob : Nat → Int) (c0 : Int) :
    InvH (init input ib ob c0) := by
  constructor <;> simp [init, rng]

theorem invLen_init (input : List Int) (ib ob : Nat → Int) (c0 : Int) :
    InvLen (init input ib ob c0) := by
  constructor <;> simp [init, rng]

theorem invSig_init (input : List Int) (ib ob : Nat → Int) (c0 : Int) :
    InvSig (init input ib ob c0) := by
  constructor <;> simp [init, rng]

theorem invL_init (input : List Int) (ib ob : Nat → Int) (c0 : Int) :
    InvL (init input ib ob c0) := by
  constructor <;> simp [init]

theorem tail5_lit (n : Nat) (c : Int) :
    tail5 (no_index (OfNat.ofNat n)) c =
      if 2 ≤ OfNat.ofNat n ∧ OfNat.ofNat n ≤ 4 then [c]
      else if OfNat.ofNat n = 5 then [EOF] else [] :=
  rfl

theorem prefix_concat_eq {l r : List Int} {v : Int} (h : l <+: r)
    (hl : l.length + 1 = r.length) (hv : r.getLast? = some v) : l ++ [v] = r := by
  obtain ⟨t, rfl⟩ := h
  match t with
  | [] => simp at hl
  | [w] => simp at hv; simp [hv]
  | _ :: _ :: _ => simp at hl

theorem prefix_snoc {l r : List Int} {v : Int} (h : l <+: r)
    (hl : l.length + 1 = r.length) (hv : r.getLast? = some v) : l ++ [v] <+: r := by
  rw [prefix_concat_eq h hl hv]

theorem prefix_concat_right {l r : List Int} (v : Int) (h : l <+: r) : l <+: r ++ [v] :=
  List.IsPrefix.trans h (List.prefix_append r [v])

theorem noEOF_of_last {l : List Int} {c : Int} (h1 : l.getLast? = some c)
    (h2 : ∀ x ∈ l.dropLast, x ≠ EOF) (h3 : c ≠ EOF) : ∀ x ∈ l, x ≠ EOF := by
  intro x hx
  rcases List.eq_nil_or_concat l with rfl | ⟨l', a, rfl⟩
  · simp at hx
  · simp at h1 h2 hx
    rcases hx with hx | rfl
    · exact h2 x hx
    · rw [h1]; exact h3

theorem noEOF_concat {l : List Int} {c : Int} (h1 : ∀ x ∈ l, x ≠ EOF) (h2 : c ≠ EOF) :
    ∀ x ∈ l ++ [c], x ≠ EOF := by
  intro x hx
  rcases List.mem_append.mp hx with hx | hx
  · exact h1 x hx
  · rw [List.mem_singleton.mp hx]; exact h2

set_option maxHeartbeats 4000000 in
theorem invB_reader (cfg : Config) (s s' : State) (h : readerThread cfg s = some s')
    (hH : InvH s) (hLen : InvLen s) (hL : InvL s) (hi : InvB cfg s) : InvB cfg s' := by
  have hx := hL.excl
  have q1 := rng_spec 4 5 s.rpc
  have q2 := rng_spec 5 6 s.rpc
  have q3 := rng_spec 3 3 s.rpc
  have q4 := rng_spec 3 4 s.rpc
  obtain ⟨a1, a2, a3, a4, a5, a6, a7, a8, a9, a10⟩ := hH
  obtain ⟨l1, l2, l3, l4, l5, l6⟩ := hLen
  obtain ⟨b1, b2, b3, b4, b5, b6, b7, b8, b9, b10, b11, b12, b13, b14, b15, b16, b17⟩ := hi
  simp only [readerThread] at h
  split at h <;> rename_i e <;> (try split at h) <;> simp at h <;> subst h <;>
    simp only [e, rng_lit, tail5_lit, Nat.reduceLeDiff, Nat.reduceEqDiff, and_self, and_true,
      and_false, true_and, false_and, reduceIte, List.append_nil, true_implies, false_implies,
      implies_true, Nat.le_refl] at * <;>
    constructor <;> dsimp only <;>
    (try simp only [rng_lit, tail5_lit, Nat.reduceLeDiff, Nat.reduceEqDiff, and_self, and_true,
      and_false, true_and, false_and, reduceIte, List.append_nil, true_implies, false_implies,
      implies_true, Nat.le_refl]) <;>
    (first
      | assumption
      | exact prefix_concat_right _ (by assumption)
      | exact noEOF_of_last b3.1 b3.2 (by assumption)
      | exact noEOF_concat (by assumption) (by assumption)
      | exact prefix_snoc (by assumption) (by omega) (b5 (by omega) (by omega))
      | (intro _ _; omega)
      | (simp_all [Function.update_same]; done))

set_option maxHeartbeats 4000000 in
theorem invB_inputCounter (cfg : Config) (s s' : State) (h : inputCounterThread cfg s = some s')
    (hH : InvH s) (hLen : InvLen s) (hL : InvL s) (hi : InvB cfg s) : InvB cfg s' := by
  have hx := hL.excl
  have q1 := rng_spec 4 5 s.rpc
  have q2 := rng_spec 5 6 s.rpc
  have q3 := rng_spec 3 3 s.rpc
  have q4 := rng_spec 3 4 s.rpc
  obtain ⟨a1, a2, a3, a4, a5, a6, a7, a8, a9, a10⟩ := hH
  obtain ⟨l1, l2, l3, l4, l5, l6⟩ := hLen
  obtain ⟨b1, b2, b3, b4, b5, b6, b7, b8, b9, b10, b11, b12, b13, b14, b15, b16, b17⟩ := hi
  simp only [inputCounterThread] at h
  split at h <;> rename_i e <;> (try split at h) <;> simp at h <;> subst h <;>
    simp only [e, rng_lit, tail5_lit, Nat.reduceLeDiff, Nat.reduceEqDiff, and_self, and_true,
      and_false, true_and, false_and, reduceIte, List.append_nil, true_implies, false_implies,
      implies_true, Nat.le_refl] at * <;>
    constructor <;> dsimp only <;>
    (try simp only [rng_lit, tail5_lit, Nat.reduceLeDiff, Nat.reduceEqDiff, and_self, and_true,
      and_false, true_and, false_and, reduceIte, List.append_nil, true_implies, false_implies,
      implies_true, Nat.le_refl]) <;>
    (first
      | assumption
      | exact prefix_concat_right _ (by assumption)
      | exact noEOF_of_last b3.1 b3.2 (by assumption)
      | exact noEOF_concat (by assumption) (by assumption)
      | exact prefix_snoc (by assumption) (by omega) (b5 (by omega) (by omega))
      | (intro _ _; omega)
      | (simp_all [Function.update_same]; done))

set_option maxHeartbeats 4000000 in
theorem invB_encryptor (cfg : Config) (s s' : State) (h : encryptorThread cfg s = some s')
    (hH : InvH s) (hLen : InvLen s) (hL : InvL s) (hi : InvB cfg s) : InvB cfg s' := by
  have hx := hL.excl
  have q1 := rng_spec 4 5 s.rpc
  have q2 := rng_spec 5 6 s.rpc
  have q3 := rng_spec 3 3 s.rpc
  have q4 := rng_spec 3 4 s.rpc
  obtain ⟨a1, a2, a3, a4, a5, a6, a7, a8, a9, a10⟩ := hH
  obtain ⟨l1, l2, l3, l4, l5, l6⟩ := hLen
  obtain ⟨b1, b2, b3, b4, b5, b6, b7, b8, b9, b10, b11, b12, b13, b14, b15, b16, b17⟩ := hi
  simp only [encryptorThread] at h
  split at h <;> rename_i e <;> (try split at h) <;> simp at h <;> subst h <;>
    simp only [e, rng_lit, tail5_lit, Nat.reduceLeDiff, Nat.reduceEqDiff, and_self, and_true,
      and_false, true_and, false_and, reduceIte, List.append_nil, true_implies, false_implies,
      implies_true, Nat.le_refl] at * <;>
    constructor <;> dsimp only <;>
    (try simp only [rng_lit, tail5_lit, Nat.reduceLeDiff, Nat.reduceEqDiff, and_self, and_true,
      and_false, true_and, false_and, reduceIte, List.append_nil, true_implies, false_implies,
      implies_true, Nat.le_refl]) <;>
    (first
      | assumption
      | exact prefix_concat_right _ (by assumption)
      | exact noEOF_of_last b3.1 b3.2 (by assumption)
      | exact noEOF_concat (by assumption) (by assumption)
      | exact prefix_snoc (by assumption) (by omega) (b5 (by omega) (by omega))
      | (intro _ _; omega)
      | (simp_all [Function.update_same]; done))

set_option maxHeartbeats 4000000 in
theorem invB_outputCounter (cfg : Config) (s s' : State) (h : outputCounterThread cfg s = some s')
    (hH : InvH s) (hLen : InvLen s) (hL : InvL s) (hi : InvB cfg s) : InvB cfg s' := by
  have hx := hL.excl
  have q1 := rng_spec 4 5 s.rpc
  have q2 := rng_spec 5 6 s.rpc
  have q3 := rng_spec 3 3 s.rpc
  have q4 := rng_spec 3 4 s.rpc
  obtain ⟨a1, a2, a3, a4, a5, a6, a7, a8, a9, a10⟩ := hH
  obtain ⟨l1, l2, l3, l4, l5, l6⟩ := hLen
  obtain ⟨b1, b2, b3, b4, b5, b6, b7, b8, b9, b10, b11, b12, b13, b14, b15, b16, b17⟩ := hi
  simp only [outputCounterThread] at h
  split at h <;> rename_i e <;> (try split at h) <;> simp at h <;> subst h <;>
    simp only [e, rng_lit, tail5_lit, Nat.reduceLeDiff, Nat.reduceEqDiff, and_self, and_true,
      and_false, true_and, false_and, reduceIte, List.append_nil, true_implies, false_implies,
      implies_true, Nat.le_refl] at * <;>
    constructor <;> dsimp only <;>
    (try simp only [rng_lit, tail5_lit, Nat.reduceLeDiff, Nat.reduceEqDiff, and_self, and_true,
      and_false, true_and, false_and, reduceIte, List.append_nil, true_implies, false_implies,
      implies_true, Nat.le_refl]) <;>
    (first
      | assumption
      | exact prefix_concat_right _ (by assumption)
      | exact noEOF_of_last b3.1 b3.2 (by assumption)
      | exact noEOF_concat (by assumption) (by assumption)
      | exact prefix_snoc (by assumption) (by omega) (b5 (by omega) (by omega))
      | (intro _ _; omega)
      | (simp_all [Function.update_same]; done))

set_option maxHeartbeats 4000000 in
theorem invB_writer (cfg : Config) (s s' : State) (h : writerThread cfg s = some s')
    (hH : InvH s) (hLen : InvLen s) (hL : InvL s) (hi : InvB cfg s) : InvB cfg s' := by
  have hx := hL.excl
  have q1 := rng_spec 4 5 s.rpc
  have q2 := rng_spec 5 6 s.rpc
  have q3 := rng_spec 3 3 s.rpc
  have q4 := rng_spec 3 4 s.rpc
  obtain ⟨a1, a2, a3, a4, a5, a6, a7, a8, a9, a10⟩ := hH
  obtain ⟨l1, l2, l3, l4, l5, l6⟩ := hLen
  obtain ⟨b1, b2, b3, b4, b5, b6, b7, b8, b9, b10, b11, b12, b13, b14, b15, b16, b17⟩ := hi
  simp only [writerThread] at h
  split at h <;> rename_i e <;> (try split at h) <;> simp at h <;> subst h <;>
    simp only [e, rng_lit, tail5_lit, Nat.reduceLeDiff, Nat.reduceEqDiff, and_self, and_true,
      and_false, true_and, false_and, reduceIte, List.append_nil, true_implies, false_implies,
      implies_true, Nat.le_refl] at * <;>
    constructor <;> dsimp only <;>
    (try simp only [rng_lit, tail5_lit, Nat.reduceLeDiff, Nat.reduceEqDiff, and_self, and_true,
      and_false, true_and, false_and, reduceIte, List.append_nil, true_implies, false_implies,
      implies_true, Nat.le_refl]) <;>
    (first
      | assumption
      | exact prefix_concat_right _ (by assumption)
      | exact noEOF_of_last b3.1 b3.2 (by assumption)
      | exact noEOF_concat (by assumption) (by assumption)
      | exact prefix_snoc (by assumption) (by omega) (b5 (by omega) (by omega))
      | (intro _ _; omega)
      | (simp_all [Function.update_same]; done))

set_option maxHeartbeats 4000000 in
theorem invB_reset (cfg : Config) (s s' : State) (h : resetThread s = some s')
    (hH : InvH s) (hLen : InvLen s) (hL : InvL s) (hi : InvB cfg s) : InvB cfg s' := by
  have hx := hL.excl
  have q1 := rng_spec 4 5 s.rpc
  have q2 := rng_spec 5 6 s.rpc
  have q3 := rng_spec 3 3 s.rpc
  have q4 := rng_spec 3 4 s.rpc
  obtain ⟨a1, a2, a3, a4, a5, a6, a7, a8, a9, a10⟩ := hH
  obtain ⟨l1, l2, l3, l4, l5, l6⟩ := hLen
  obtain ⟨b1, b2, b3, b4, b5, b6, b7, b8, b9, b10, b11, b12, b13, b14, b15, b16, b17⟩ := hi
  simp only [resetThread, reset_requested, reset_finished] at h
  split at h <;> split at h <;> rename_i e <;> (try split at h) <;> simp at h <;> subst h <;>
    simp only [e, rng_lit, tail5_lit, Nat.reduceLeDiff, Nat.reduceEqDiff, and_self, and_true,
      and_false, true_and, false_and, reduceIte, List.append_nil, true_implies, false_implies,
      implies_true, Nat.le_refl] at * <;>
    constructor <;> dsimp only <;>
    (try simp only [rng_lit, tail5_lit, Nat.reduceLeDiff, Nat.reduceEqDiff, and_self, and_true,
      and_false, true_and, false_and, reduceIte, List.append_nil, true_implies, false_implies,
      implies_true, Nat.le_refl]) <;>
    (first
      | assumption
      | exact prefix_concat_right _ (by assumption)
      | exact noEOF_of_last b3.1 b3.2 (by assumption)
      | exact noEOF_concat (by assumption) (by assumption)
      | exact prefix_snoc (by assumption) (by omega) (b5 (by omega) (by omega))
      | (intro _ _; omega)
      | (simp_all [Function.update_same]; done))

theorem invB_step (cfg : Config) (t : Thread) (s s' : State) (h : step cfg t s = some s')
    (hH : InvH s) (hLen : InvLen s) (hL : InvL s) (hi : InvB cfg s) : InvB cfg s' := by
  cases t
  · exact invB_reader cfg s s' h hH hLen hL hi
  · exact invB_inputCounter cfg s s' h hH hLen hL hi
  · exact invB_encryptor cfg s s' h hH hLen hL hi
  · exact invB_outputCounter cfg s s' h hH hLen hL hi
  · exact invB_writer cfg s s' h hH hLen hL hi
  · exact invB_reset cfg s s' h hH hLen hL hi

theorem invB_init (cfg : Config) (input : List Int) (ib ob : Nat → Int) (c0 : Int) :
    InvB cfg (init input ib ob c0) := by
  constructor <;> simp [init, tail5]

theorem toChar_EOF : toChar EOF = EOF := by decide

theorem invR_step (cfg : Config) (input0 : List Int) (t : Thread) (s s' : State)
    (h : step cfg t s = some s') (hi : InvR input0 s) : InvR input0 s' := by
  unfold InvR at *
  cases t
  case reader =>
    simp only [step, readerThread] at h
    split at h <;> rename_i e <;> (try split at h) <;> simp at h <;> subst h <;> dsimp only
    · rcases hi with hi | ⟨_, _, h2, _⟩
      · exact Or.inl hi
      · omega
    · rcases hi with hi | ⟨_, _, h2, _⟩
      · cases hin : s.input with
        | nil =>
          right
          simp [hin, read_input] at hi ⊢
          simp [hi, toChar_EOF]
        | cons x xs =>
          left
          simp [hin, read_input] at hi ⊢
          exact hi
      · omega
    all_goals
      rcases hi with hi | ⟨h0, h1, h2, h3⟩
      · exact Or.inl hi
      · first
          | exact Or.inr ⟨h0, h1, by omega, h3⟩
          | exact absurd h3 (by assumption)
  case reset =>
    simp only [step, resetThread, reset_requested, reset_finished] at h
    split at h <;> split at h <;> (try split at h) <;> simp at h <;> subst h <;> exact hi
  all_goals
    simp only [step, inputCounterThread, encryptorThread, outputCounterThread,
      writerThread] at h
    split at h <;> (try split at h) <;> simp at h <;> subst h <;> exact hi

theorem invR_init (input : List Int) (ib ob : Nat → Int) (c0 : Int) :
    InvR input (init input ib ob c0) := by
  left; simp [init]

set_option maxHeartbeats 4000000 in
theorem invN_step (cfg : Config) (t : Thread) (s s' : State) (ht : t ≠ Thread.reset)
    (h : step cfg t s = some s') (hH : InvH s) (hLen : InvLen s) (hi : InvN cfg s) :
    InvN cfg s' := by
  have q1 := rng_spec 5 7 s.epc
  have q2 := rng_spec 6 8 s.epc
  have q3 := rng_spec 4 4 s.epc
  have q4 := rng_spec 4 5 s.epc
  obtain ⟨a1, a2, a3, a4, a5, a6, a7, a8, a9, a10⟩ := hH
  obtain ⟨l1, l2, l3, l4, l5, l6⟩ := hLen
  obtain ⟨b1, b2, b3, b4, b5⟩ := hi
  cases t
  case reset => exact absurd rfl ht
  all_goals
    simp only [step, readerThread, inputCounterThread, encryptorThread, outputCounterThread,
      writerThread] at h
    split at h <;> rename_i e <;> (try split at h) <;> simp at h <;> subst h <;>
    simp only [e, rng_lit, Nat.reduceLeDiff, Nat.reduceEqDiff, and_self, and_true,
      and_false, true_and, false_and, reduceIte, List.append_nil, true_implies, false_implies,
      implies_true, Nat.le_refl] at * <;>
    constructor <;> dsimp only <;>
    (try simp only [rng_lit, Nat.reduceLeDiff, Nat.reduceEqDiff, and_self, and_true,
      and_false, true_and, false_and, reduceIte, List.append_nil, true_implies, false_implies,
      implies_true, Nat.le_refl]) <;>
    (first
      | assumption
      | exact prefix_concat_right _ (by assumption)
      | exact prefix_snoc (by assumption) (by omega) (b3 (by omega) (by omega))
      | (intro _ _; omega)
      | (simp_all [Function.update_same]; done))

theorem invN_init (cfg : Config) (input : List Int) (ib ob : Nat → Int) (c0 : Int) :
    InvN cfg (init input ib ob c0) := by
  constructor <;> simp [init]

theorem inv_init (cfg : Config) (input : List Int) (ib ob : Nat → Int) (c0 : Int) :
    AllInv cfg input (init input ib ob c0) :=
  ⟨invH_init input ib ob c0, invLen_init input ib ob c0, invSig_init input ib ob c0,
    invL_init input ib ob c0, invB_init cfg input ib ob c0, invR_init input ib ob c0⟩

theorem inv_step (cfg : Config) (input0 : List Int) (t : Thread) (s s' : State)
    (h : step cfg t s = some s') (hi : AllInv cfg input0 s) : AllInv cfg input0 s' :=
  ⟨invH_step cfg t s s' h hi.hH, invLen_step cfg t s s' h hi.hLen,
    invSig_step cfg t s s' h hi.hSig, invL_step cfg t s s' h hi.hL,
    invB_step cfg t s s' h hi.hH hi.hLen hi.hL hi.hB, invR_step cfg input0 t s s' h hi.hR⟩

theorem reach_inv (cfg : Config) (resets : Bool) (input : List Int) (ib ob : Nat → Int)
    (c0 : Int) (s : State) (h : Reach cfg resets (init input ib ob c0) s) :
    AllInv cfg input s := by
  induction h with
  | start => exact inv_init cfg input ib ob c0
  | next t s s' _ _ hs ih => exact inv_step cfg input t s s' hs ih

theorem reach_invN (cfg : Config) (input : List Int) (ib ob : Nat → Int)
    (c0 : Int) (s : State) (h : Reach cfg false (init input ib ob c0) s) :
    InvN cfg s := by
  induction h with
  | start => exact invN_init cfg input ib ob c0
  | next t s s' hr ht hs ih =>
    have hI := reach_inv cfg false input ib ob c0 s hr
    refine invN_step cfg t s s' ?_ hs hI.hH hI.hLen ih
    intro h0
    exact Bool.noConfusion (ht h0)

theorem exec_reach (cfg : Config) (resets : Bool) (sched : List Thread) (s0 s : State)
    (hs : ∀ t ∈ sched, t = Thread.reset → resets = true) (h : Reach cfg resets s0 s) :
    Reach cfg resets s0 (exec cfg sched s) := by
  induction sched generalizing s with
  | nil => exact h
  | cons t ts ih =>
    simp only [exec]
    apply ih _ (fun t' ht' => hs t' (List.mem_cons_of_mem _ ht'))
    cases hst : step cfg t s with
    | none => exact h
    | some s' => exact Reach.next t s s' h (hs t (List.mem_cons_self _ _)) hst

theorem realChars_of_noEOF {l : List Int} (h : ∀ x ∈ l, x ≠ EOF) : realChars l = l := by
  unfold realChars
  rw [List.filter_eq_self]
  intro x hx
  simpa using h x hx

theorem realChars_prefix {l r : List Int} (h : l <+: r) : realChars l <+: realChars r := by
  unfold realChars
  exact List.IsPrefix.filter _ h

theorem realChars_concat_EOF (l : List Int) : realChars (l ++ [EOF]) = realChars l := by
  simp [realChars]

/-- A prefix that ends in the end marker, of a list whose only end marker can be its last
element, is the whole list. -/
theorem eof_prefix_eq {l r : List Int} (h : l ++ [EOF] <+: r)
    (hr : ∀ x ∈ r.dropLast, x ≠ EOF) : r = l ++ [EOF] := by
  obtain ⟨t, rfl⟩ := h
  rcases List.eq_nil_or_concat t with rfl | ⟨t', a, rfl⟩
  · simp
  · exfalso
    have : (l ++ [EOF] ++ t'.concat a).dropLast = l ++ [EOF] ++ t' := by
      rw [List.concat_eq_append, ← List.append_assoc, List.dropLast_concat]
    rw [this] at hr
    exact hr EOF (by simp) rfl

theorem AllInv.reads_dropLast {cfg : Config} {input0 : List Int} {s : State}
    (h : AllInv cfg input0 s) : ∀ x ∈ s.reads.dropLast, x ≠ EOF := by
  by_cases hp : 2 ≤ s.rpc
  · exact (h.hB.r_b hp).2
  · intro x hx
    exact h.hB.r_a (by omega) x (List.mem_of_mem_dropLast hx)

theorem AllInv.istored_prefix {cfg : Config} {input0 : List Int} {s : State}
    (h : AllInv cfg input0 s) : s.istored <+: s.reads := by
  rw [h.hB.r_st]; exact List.prefix_append _ _

theorem AllInv.counted_in_prefix {cfg : Config} {input0 : List Int} {s : State}
    (h : AllInv cfg input0 s) : s.counted_in <+: s.reads := by
  have h1 : s.counted_in <+: s.iseen := by rw [h.hB.i_c]; exact List.prefix_append _ _
  exact (h1.trans h.hB.i_pre).trans h.istored_prefix

theorem AllInv.realReads_prefix {cfg : Config} {input0 : List Int} {s : State}
    (h : AllInv cfg input0 s) (hin : ∀ r ∈ input0, toChar r ≠ EOF) :
    realChars s.reads <+: input0.map toChar := by
  have hmap : realChars (input0.map toChar) = input0.map toChar :=
    realChars_of_noEOF (by
      intro x hx
      obtain ⟨r, hr, rfl⟩ := List.mem_map.mp hx
      exact hin r hr)
  rcases h.hR with h1 | ⟨_, h1, _, _⟩
  · have : s.reads <+: input0.map toChar := ⟨_, h1⟩
    have := realChars_prefix this
    rwa [hmap] at this
  · rw [h1, realChars_concat_EOF, hmap]

/-- Once the end marker is among the values read, the values read are the whole file followed
by the end marker (for a file of real characters). -/
theorem AllInv.reads_of_eof {cfg : Config} {input0 : List Int} {s : State}
    (h : AllInv cfg input0 s) (hin : ∀ r ∈ input0, toChar r ≠ EOF) (he : EOF ∈ s.reads) :
    s.reads = input0.map toChar ++ [EOF] := by
  rcases h.hR with h1 | ⟨_, h1, _, _⟩
  · exfalso
    have : EOF ∈ input0.map toChar := by
      rw [← h1]; exact List.mem_append_left _ he
    obtain ⟨r, hr, hre⟩ := List.mem_map.mp this
    exact hin r hr hre
  · exact h1

theorem concat_inj_left {l r : List Int} {a : Int} (h : l ++ [a] = r ++ [a]) : l = r :=
  List.append_cancel_right h

/-- Input count conservation on files without the byte 0xFF.  For a file whose values all
have a `char` conversion other than `EOF`, in every reachable state, resets allowed, the
arguments of the `count_input` calls made so far are a prefix of the real characters
`read_input` has returned so far, which are a prefix of the file; no argument is the end
marker; and once `inputCounterThread` has returned, the arguments are the whole file.
(Cursors are unbounded in the model.) -/
theorem count_input_conservation (cfg : Config) (hn : 0 < cfg.n) (hm : 0 < cfg.m)
    (resets : Bool) (input : List Int) (ib ob : Nat → Int) (c0 : Int) (s : State)
    (hin : ∀ r ∈ input, toChar r ≠ EOF)
    (hr : Reach cfg resets (init input ib ob c0) s) :
    s.counted_in <+: realChars s.reads ∧
    realChars s.reads <+: input.map toChar ∧
    (∀ x ∈ s.counted_in, x ≠ EOF) ∧
    (s.ipc = 5 → s.counted_in = realChars s.reads ∧ s.counted_in = input.map toChar ∧
      s.counted_in.length = input.length) := by
  have h := reach_inv cfg resets input ib ob c0 s hr
  refine ⟨?_, h.realReads_prefix hin, h.hB.i_n, ?_⟩
  · have := realChars_prefix h.counted_in_prefix
    rwa [realChars_of_noEOF h.hB.i_n] at this
  · intro h5
    have hic := h.hB.i_c
    simp only [h5, tail5, Nat.reduceLeDiff, and_false, reduceIte] at hic
    have hpre : s.counted_in ++ [EOF] <+: s.reads := by
      rw [← hic]; exact h.hB.i_pre.trans h.istored_prefix
    have hreads := eof_prefix_eq hpre h.reads_dropLast
    have hfile := h.reads_of_eof hin (by rw [hreads]; simp)
    have heq : s.counted_in = input.map toChar := by
      rw [hreads] at hfile
      exact concat_inj_left hfile
    refine ⟨?_, heq, ?_⟩
    · rw [hreads, realChars_concat_EOF, realChars_of_noEOF h.hB.i_n]
    · rw [heq, List.length_map]

/-- Slot handshake facts that hold in every reachable state, with or without resets: each
of the eight handshake semaphores is at most 1; per buffer the number of values stored
exceeds the number read by each consumer by 0 or 1; what the input consumers have read is a
prefix of what the reader stored; when the reader is about to store into `input_buffer`
(program counter 2) or to increment `input_count` (7) both input consumers have read every
value stored so far, and when the encryptor is about to store into `output_buffer` (3) or to
increment `output_count` (9) both output consumers have read as many values as were stored.
Only without resets have the output consumers read exactly the values stored.
(Cursors are unbounded in the model.) -/
theorem slot_handshake (cfg : Config) (hn : 0 < cfg.n) (hm : 0 < cfg.m)
    (resets : Bool) (input : List Int) (ib ob : Nat → Int) (c0 : Int) (s : State)
    (hr : Reach cfg resets (init input ib ob c0) s) :
    (s.input_mutex ≤ 1 ∧ s.encrypt_mutex ≤ 1 ∧ s.output_mutex ≤ 1 ∧ s.write_mutex ≤ 1 ∧
      s.input_finished_mutex ≤ 1 ∧ s.encrypt_finished_mutex ≤ 1 ∧
      s.output_finished_mutex ≤ 1 ∧ s.write_finished_mutex ≤ 1) ∧
    (s.iseen.length ≤ s.istored.length ∧ s.istored.length ≤ s.iseen.length + 1) ∧
    (s.eseen.length ≤ s.istored.length ∧ s.istored.length ≤ s.eseen.length + 1) ∧
    (s.oseen.length ≤ s.ostored.length ∧ s.ostored.length ≤ s.oseen.length + 1) ∧
    (s.wseen.length ≤ s.ostored.length ∧ s.ostored.length ≤ s.wseen.length + 1) ∧
    (s.iseen <+: s.istored ∧ s.eseen <+: s.istored) ∧
    (s.rpc = 2 ∨ s.rpc = 7 → s.iseen = s.istored ∧ s.eseen = s.istored) ∧
    (s.epc = 3 ∨ s.epc = 9 →
      s.oseen.length = s.ostored.length ∧ s.wseen.length = s.ostored.length) ∧
    (resets = false → s.oseen <+: s.ostored ∧ s.wseen <+: s.ostored ∧
      (s.epc = 3 ∨ s.epc = 9 → s.oseen = s.ostored ∧ s.wseen = s.ostored)) := by
  have h := reach_inv cfg resets input ib ob c0 s hr
  obtain ⟨a1, a2, a3, a4, a5, a6, a7, a8, a9, a10⟩ := h.hH
  obtain ⟨l1, l2, l3, l4, l5, l6⟩ := h.hLen
  have r1 := rng_le_one 4 5 s.rpc
  have r2 := rng_le_one 5 6 s.rpc
  have r3 := rng_le_one 5 7 s.epc
  have r4 := rng_le_one 6 8 s.epc
  have d1 : s.iseen.length ≤ s.istored.length ∧ s.istored.length ≤ s.iseen.length + 1 := by
    have q1 := rng_spec 1 2 s.ipc
    have q2 := rng_spec 1 1 s.ipc
    have q3 := rng_spec 4 5 s.rpc
    have q4 := rng_spec 3 3 s.rpc
    omega
  have d2 : s.eseen.length ≤ s.istored.length ∧ s.istored.length ≤ s.eseen.length + 1 := by
    have q1 := rng_spec 1 2 s.epc
    have q2 := rng_spec 1 1 s.epc
    have q3 := rng_spec 5 6 s.rpc
    have q4 := rng_spec 3 4 s.rpc
    omega
  have d3 : s.oseen.length ≤ s.ostored.length ∧ s.ostored.length ≤ s.oseen.length + 1 := by
    have q1 := rng_spec 1 2 s.opc
    have q2 := rng_spec 1 1 s.opc
    have q3 := rng_spec 5 7 s.epc
    have q4 := rng_spec 4 4 s.epc
    omega
  have d4 : s.wseen.length ≤ s.ostored.length ∧ s.ostored.length ≤ s.wseen.length + 1 := by
    have q1 := rng_spec 1 2 s.wpc
    have q2 := rng_spec 1 1 s.wpc
    have q3 := rng_spec 6 8 s.epc
    have q4 := rng_spec 4 5 s.epc
    omega
  have e1 : s.rpc = 2 ∨ s.rpc = 7 → s.iseen.length = s.istored.length ∧
      s.eseen.length = s.istored.length := by
    intro hp
    constructor
    · have q1 := rng_spec 1 2 s.ipc
      have q2 := rng_spec 1 1 s.ipc
      have q3 := rng_spec 4 5 s.rpc
      have q4 := rng_spec 3 3 s.rpc
      omega
    · have q1 := rng_spec 1 2 s.epc
      have q2 := rng_spec 1 1 s.epc
      have q3 := rng_spec 5 6 s.rpc
      have q4 := rng_spec 3 4 s.rpc
      omega
  have e2 : s.epc = 3 ∨ s.epc = 9 → s.oseen.length = s.ostored.length ∧
      s.wseen.length = s.ostored.length := by
    intro hp
    constructor
    · have q1 := rng_spec 1 2 s.opc
      have q2 := rng_spec 1 1 s.opc
      have q3 := rng_spec 5 7 s.epc
      have q4 := rng_spec 4 4 s.epc
      omega
    · have q1 := rng_spec 1 2 s.wpc
      have q2 := rng_spec 1 1 s.wpc
      have q3 := rng_spec 6 8 s.epc
      have q4 := rng_spec 4 5 s.epc
      omega
  refine ⟨by omega, d1, d2, d3, d4, ⟨h.hB.i_pre, h.hB.e_pre⟩,
    ?_, e2, ?_⟩
  · intro hp
    exact ⟨h.hB.i_pre.eq_of_length (e1 hp).1, h.hB.e_pre.eq_of_length (e1 hp).2⟩
  · intro hf
    subst hf
    have hN := reach_invN cfg input ib ob c0 s hr
    exact ⟨hN.o_pre, hN.w_pre, fun hp =>
      ⟨hN.o_pre.eq_of_length (e2 hp).1, hN.w_pre.eq_of_length (e2 hp).2⟩⟩

/-- Claim C6: mutual exclusion of reset and cycle start.  In every reachable state in which
the coordinator holds `reader_lock` (from the lock in `reset_requested` to the unlock in
`reset_finished`, program counters 1 to 8) the mutex is owned by the coordinator, the reader
is outside its critical section (at its `pthread_mutex_lock` or returned) and cannot step,
and no step of any thread calls `read_input`, stores into `input_buffer`, posts
`input_mutex` or `encrypt_mutex`, or increments `input_count`. -/
theorem reset_excludes_reader (cfg : Config) (hn : 0 < cfg.n) (hm : 0 < cfg.m)
    (input : List Int) (ib ob : Nat → Int) (c0 : Int) (s : State)
    (hr : Reach cfg true (init input ib ob c0) s) (hx : 1 ≤ s.xpc ∧ s.xpc ≤ 8) :
    s.reader_lock = Lock.resetter ∧ (s.rpc = 0 ∨ s.rpc = 9) ∧ readerThread cfg s = none ∧
    ∀ t s', step cfg t s = some s' →
      s'.rpc = s.rpc ∧ s'.reads = s.reads ∧ s'.istored = s.istored ∧
      s'.input_buffer = s.input_buffer ∧ s'.input_mutex ≤ s.input_mutex ∧
      s'.encrypt_mutex ≤ s.encrypt_mutex ∧ s'.input_count ≤ s.input_count := by
  have h := reach_inv cfg true input ib ob c0 s hr
  have hlock : s.reader_lock = Lock.resetter := h.hL.lock_x.mpr hx
  have hex := h.hL.excl
  have hle := h.hH.rpc_le
  have hpc : s.rpc = 0 ∨ s.rpc = 9 := by omega
  have hnone : readerThread cfg s = none := by
    rcases hpc with h0 | h9
    · simp [readerThread, h0, hlock]
    · simp [readerThread, h9]
  refine ⟨hlock, hpc, hnone, ?_⟩
  intro t s' hs
  cases t
  case reader => simp [step, hnone] at hs
  case reset =>
    simp only [step, resetThread, reset_requested, reset_finished] at hs
    split at hs <;> split at hs <;> (try split at hs) <;> simp at hs <;> subst hs <;> simp
  all_goals
    simp only [step, inputCounterThread, encryptorThread, outputCounterThread,
      writerThread] at hs
    split at hs <;> (try split at hs) <;> simp at hs <;> subst hs <;> simp

theorem prefix_of_concat_EOF {p l : List Int} (h : p <+: l ++ [EOF])
    (hp : ∀ x ∈ p, x ≠ EOF) : p <+: l := by
  obtain ⟨t, ht⟩ := h
  rcases List.eq_nil_or_concat t with rfl | ⟨t', a, rfl⟩
  · exfalso
    rw [List.append_nil] at ht
    exact hp EOF (by rw [ht]; simp) rfl
  · rw [List.concat_eq_append, ← List.append_assoc] at ht
    have := List.append_inj_left' ht rfl
    exact ⟨t', this⟩

theorem AllInv.encrypted_prefix {cfg : Config} {input0 : List Int} {s : State}
    (h : AllInv cfg input0 s) (hin : ∀ r ∈ input0, toChar r ≠ EOF) :
    s.encrypted <+: input0.map toChar := by
  have h1 : s.encrypted <+: s.eseen := by rw [h.hB.e_c]; exact List.prefix_append _ _
  have h2 := realChars_prefix ((h1.trans h.hB.e_pre).trans h.istored_prefix)
  rw [realChars_of_noEOF h.hB.e_n] at h2
  exact h2.trans (h.realReads_prefix hin)

/-- Facts about a state in which every stage has returned. -/
theorem AllInv.done_facts {cfg : Config} {input0 : List Int} {s : State}
    (h : AllInv cfg input0 s) (hd : allDone s) :
    s.reads = s.encrypted ++ [EOF] ∧ s.iseen = s.reads ∧ s.eseen = s.reads ∧
    s.ostored = s.encrypted.map (fun c => toChar (cfg.encrypt c)) ++ [EOF] ∧
    s.oseen.length = s.ostored.length ∧ s.wseen.length = s.ostored.length ∧
    s.ostored.length = s.reads.length := by
  obtain ⟨d1, d2, d3, d4, d5⟩ := hd
  obtain ⟨a1, a2, a3, a4, a5, a6, a7, a8, a9, a10⟩ := h.hH
  obtain ⟨l1, l2, l3, l4, l5, l6⟩ := h.hLen
  simp only [d1, d2, d3, d4, d5, rng_lit, Nat.reduceLeDiff, and_self, and_true, and_false,
    true_and, false_and, reduceIte] at a7 a8 a9 a10 l1 l2 l3 l4 l5 l6
  have hec := h.hB.e_10 d3
  have hst := h.hB.r_st
  simp only [d1, Nat.reduceEqDiff, reduceIte, List.append_nil] at hst
  have hie : s.iseen = s.istored := h.hB.i_pre.eq_of_length (by omega)
  have hee : s.eseen = s.istored := h.hB.e_pre.eq_of_length (by omega)
  have hec2 := h.hB.e_c
  simp only [d3, hec, Nat.reduceEqDiff, Nat.reduceLeDiff, and_self, false_or, reduceIte]
    at hec2
  have heo := h.hB.e_o
  simp only [d3, hec, Nat.reduceLeDiff, and_self, reduceIte] at heo
  refine ⟨?_, ?_, ?_, heo, by omega, by omega, by omega⟩
  · rw [hst, ← hee, hec2]
  · rw [hie, hst]
  · rw [hee, hst]

/-- Order preservation without reset on files without the byte 0xFF.  In every state
reachable without a call of `reset_requested`, for a file whose values all have a `char`
conversion other than `EOF`, the arguments passed to `write_output` so far are a prefix of
the element-wise `encrypt` (applied to, and stored as, `char` values) of the file, in read
order, and neither `write_output` nor `encrypt` has been passed the end marker; once all
five stages have returned, the arguments of `write_output` are exactly these results, and the
values stored into `output_buffer` are these results followed by the end marker, stored
untransformed, once, as the last element.  (Cursors are unbounded in the model.) -/
theorem order_preservation (cfg : Config) (hn : 0 < cfg.n) (hm : 0 < cfg.m)
    (input : List Int) (ib ob : Nat → Int) (c0 : Int) (s : State)
    (hin : ∀ r ∈ input, toChar r ≠ EOF)
    (hr : Reach cfg false (init input ib ob c0) s) :
    s.written <+: (input.map toChar).map (fun c => toChar (cfg.encrypt c)) ∧
    (∀ x ∈ s.written, x ≠ EOF) ∧ (∀ x ∈ s.encrypted, x ≠ EOF) ∧
    (allDone s →
      s.written = (input.map toChar).map (fun c => toChar (cfg.encrypt c)) ∧
      s.encrypted = input.map toChar ∧
      s.ostored = s.written ++ [EOF]) := by
  have h := reach_inv cfg false input ib ob c0 s hr
  have hN := reach_invN cfg input ib ob c0 s hr
  have hw : s.written <+: s.ostored := by
    have : s.written <+: s.wseen := by rw [h.hB.w_c]; exact List.prefix_append _ _
    exact this.trans hN.w_pre
  have hwe : s.written <+: s.encrypted.map (fun c => toChar (cfg.encrypt c)) := by
    have heo := h.hB.e_o
    by_cases hc : 4 ≤ s.epc ∧ s.ec = EOF
    · simp only [hc, and_self, reduceIte] at heo
      rw [heo] at hw
      exact prefix_of_concat_EOF hw h.hB.w_n
    · simp only [hc, reduceIte, List.append_nil] at heo
      rwa [heo] at hw
  refine ⟨hwe.trans (List.IsPrefix.map _ (h.encrypted_prefix hin)), h.hB.w_n, h.hB.e_n, ?_⟩
  intro hd
  obtain ⟨f1, f2, f3, f4, f5, f6, f7⟩ := h.done_facts hd
  have hwc := h.hB.w_c
  simp only [hd.2.2.2.2, tail5, Nat.reduceLeDiff, and_false, reduceIte] at hwc
  have hws : s.wseen = s.ostored := hN.w_pre.eq_of_length f6
  have hfile := h.reads_of_eof hin (by rw [f1]; simp)
  have henc : s.encrypted = input.map toChar := by
    rw [f1] at hfile; exact concat_inj_left hfile
  have hwr : s.written = s.encrypted.map (fun c => toChar (cfg.encrypt c)) := by
    rw [hwc, f4] at hws; exact concat_inj_left hws
  refine ⟨by rw [hwr, henc], henc, ?_⟩
  rw [← hws, hwc]

theorem lock_free_of {s : State} (hL : InvL s) (h1 : s.rpc = 0 ∨ s.rpc = 9)
    (h2 : s.xpc = 0) : s.reader_lock = Lock.free := by
  have a := hL.lock_r
  have b := hL.lock_x
  cases hl : s.reader_lock with
  | free => rfl
  | reader => have := a.mp hl; omega
  | resetter => have := b.mp hl; omega

/-- Claim C7 (amended): a call of `reset_requested` made after all five stages have returned,
when fewer calls have completed before it than `read_input` was called (in particular the
first call of a run), does not block: its eight statements run through, it sets
`input_count` and `output_count` to 0 and calls `log_counts` once; no stage can step
meanwhile. -/
theorem reset_after_termination (cfg : Config) (hn : 0 < cfg.n) (hm : 0 < cfg.m)
    (input : List Int) (ib ob : Nat → Int) (c0 : Int) (s : State)
    (hr : Reach cfg true (init input ib ob c0) s) (hd : allDone s) (hx : s.xpc = 0)
    (hk : s.logs.length < s.reads.length) :
    (∀ t, t ≠ Thread.reset → step cfg t s = none) ∧
    ∃ s', resetCall 8 s = some s' ∧ s'.xpc = 8 ∧ s'.input_count = 0 ∧ s'.output_count = 0 ∧
      s'.logs = s.logs ++ [(s.counted_in.length, s.counted_out.length)] ∧
      s'.reader_lock = Lock.resetter ∧ allDone s' := by
  have h := reach_inv cfg true input ib ob c0 s hr
  obtain ⟨f1, f2, f3, f4, f5, f6, f7⟩ := h.done_facts hd
  have hlock := lock_free_of h.hL (Or.inr hd.1) hx
  obtain ⟨d1, d2, d3, d4, d5⟩ := hd
  obtain ⟨g1, g2, g3, g4⟩ := h.hSig
  simp only [d1, d2, d3, d4, d5, hx, rng_lit, Nat.reduceLeDiff, and_self, and_true, and_false,
    true_and, false_and, reduceIte] at g1 g2 g3 g4
  rw [f2] at g1
  rw [f3] at g2
  have s1 : 0 < s.input_signal := by omega
  have s2 : 0 < s.encrypt_signal := by omega
  have s3 : 0 < s.output_signal := by omega
  have s4 : 0 < s.write_signal := by omega
  constructor
  · intro t ht
    cases t <;> simp [step, readerThread, inputCounterThread, encryptorThread,
      outputCounterThread, writerThread, d1, d2, d3, d4, d5] at ht ⊢
  · simp [resetCall, reset_requested, hx, hlock, s1, s2, s3, s4, allDone, d1, d2, d3, d4, d5]

theorem wR_lit (n : Nat) : wR (no_index (OfNat.ofNat n)) =
    if OfNat.ofNat n = 0 then 2 else if OfNat.ofNat n = 1 then 1
    else if OfNat.ofNat n ≤ 8 then 11 - OfNat.ofNat n else 0 := rfl

theorem wC_lit (n : Nat) : wC (no_index (OfNat.ofNat n)) =
    if OfNat.ofNat n = 0 then 2 else if OfNat.ofNat n = 1 then 1
    else if OfNat.ofNat n ≤ 4 then 7 - OfNat.ofNat n else 0 := rfl

theorem wE_lit (n : Nat) : wE (no_index (OfNat.ofNat n)) =
    if OfNat.ofNat n = 0 then 2 else if OfNat.ofNat n = 1 then 1
    else if OfNat.ofNat n ≤ 9 then 12 - OfNat.ofNat n else 0 := rfl

theorem reader_blocked (cfg : Config) (s : State) (h : readerThread cfg s = none) :
    (s.rpc = 0 ∧ s.reader_lock ≠ Lock.free) ∨ (s.rpc = 5 ∧ s.input_finished_mutex = 0) ∨
    (s.rpc = 6 ∧ s.encrypt_finished_mutex = 0) ∨ 9 ≤ s.rpc := by
  unfold readerThread at h
  split at h <;> (try split at h) <;> simp_all <;> omega

theorem consumer_blocked_i (cfg : Config) (s : State) (h : inputCounterThread cfg s = none) :
    (s.ipc = 0 ∧ s.input_mutex = 0) ∨ 5 ≤ s.ipc := by
  unfold inputCounterThread at h
  split at h <;> (try split at h) <;> simp_all <;> omega

theorem consumer_blocked_o (cfg : Config) (s : State) (h : outputCounterThread cfg s = none) :
    (s.opc = 0 ∧ s.output_mutex = 0) ∨ 5 ≤ s.opc := by
  unfold outputCounterThread at h
  split at h <;> (try split at h) <;> simp_all <;> omega

theorem consumer_blocked_w (cfg : Config) (s : State) (h : writerThread cfg s = none) :
    (s.wpc = 0 ∧ s.write_mutex = 0) ∨ 5 ≤ s.wpc := by
  unfold writerThread at h
  split at h <;> (try split at h) <;> simp_all <;> omega

theorem encryptor_blocked (cfg : Config) (s : State) (h : encryptorThread cfg s = none) :
    (s.epc = 0 ∧ s.encrypt_mutex = 0) ∨ (s.epc = 7 ∧ s.output_finished_mutex = 0) ∨
    (s.epc = 8 ∧ s.write_finished_mutex = 0) ∨ 10 ≤ s.epc := by
  unfold encryptorThread at h
  split at h <;> (try split at h) <;> simp_all <;> omega

theorem eof_mem_prefix_eq {l r : List Int} (hp : l <+: r) (hmem : EOF ∈ l)
    (hr : ∀ x ∈ r.dropLast, x ≠ EOF) : l = r := by
  obtain ⟨t, rfl⟩ := hp
  rcases List.eq_nil_or_concat t with rfl | ⟨t', a, rfl⟩
  · simp
  · exfalso
    have : (l ++ t'.concat a).dropLast = l ++ t' := by
      rw [List.concat_eq_append, ← List.append_assoc, List.dropLast_concat]
    rw [this] at hr
    exact hr EOF (List.mem_append_left _ hmem) rfl

theorem mem_of_getLast? {l : List Int} {c : Int} (h : l.getLast? = some c) : c ∈ l := by
  rcases List.eq_nil_or_concat l with rfl | ⟨l', a, rfl⟩
  · simp at h
  · simp at h; simp [h]

theorem eq_last_of_mem {l : List Int} {c a : Int} (h : l.getLast? = some c)
    (hd : ∀ x ∈ l.dropLast, x ≠ a) (hm : a ∈ l) : c = a := by
  rcases List.eq_nil_or_concat l with rfl | ⟨l', b, rfl⟩
  · simp at h
  · simp at h hd hm
    rcases hm with hm | rfl
    · exact absurd rfl (hd a hm)
    · exact h.symm

theorem eof_mem_tail5 (l : List Int) (pc : Nat) (c : Int) (hl : ∀ x ∈ l, x ≠ EOF) :
    EOF ∈ l ++ tail5 pc c ↔ (2 ≤ pc ∧ pc ≤ 4 ∧ c = EOF) ∨ pc = 5 := by
  have hn : EOF ∉ l := fun hm => hl EOF hm rfl
  unfold tail5
  split_ifs with h1 h2
  · simp [hn]
    constructor
    · intro h; left; exact ⟨h1.1, h1.2, h.symm⟩
    · rintro (⟨_, _, h⟩ | h)
      · exact h.symm
      · omega
  · simp [hn, h2]
  · simp [hn]
    omega

theorem AllInv.eof_reads_iff {cfg : Config} {input0 : List Int} {s : State}
    (h : AllInv cfg input0 s) : EOF ∈ s.reads ↔ (2 ≤ s.rpc ∧ s.rc = EOF) := by
  constructor
  · intro hm
    by_cases hp : 2 ≤ s.rpc
    · exact ⟨hp, eq_last_of_mem (h.hB.r_b hp).1 (h.hB.r_b hp).2 hm⟩
    · exact absurd rfl (h.hB.r_a (by omega) EOF hm)
  · rintro ⟨hp, hc⟩
    have := mem_of_getLast? (h.hB.r_b hp).1
    rwa [hc] at this

theorem AllInv.eof_iseen_iff {cfg : Config} {input0 : List Int} {s : State}
    (h : AllInv cfg input0 s) :
    EOF ∈ s.iseen ↔ (2 ≤ s.ipc ∧ s.ipc ≤ 4 ∧ s.ic = EOF) ∨ s.ipc = 5 := by
  rw [h.hB.i_c]; exact eof_mem_tail5 _ _ _ h.hB.i_n

theorem AllInv.eof_oseen_iff {cfg : Config} {input0 : List Int} {s : State}
    (h : AllInv cfg input0 s) :
    EOF ∈ s.oseen ↔ (2 ≤ s.opc ∧ s.opc ≤ 4 ∧ s.oc = EOF) ∨ s.opc = 5 := by
  rw [h.hB.o_c]; exact eof_mem_tail5 _ _ _ h.hB.o_n

theorem AllInv.eof_wseen_iff {cfg : Config} {input0 : List Int} {s : State}
    (h : AllInv cfg input0 s) :
    EOF ∈ s.wseen ↔ (2 ≤ s.wpc ∧ s.wpc ≤ 4 ∧ s.wc = EOF) ∨ s.wpc = 5 := by
  rw [h.hB.w_c]; exact eof_mem_tail5 _ _ _ h.hB.w_n

theorem AllInv.eof_eseen_iff {cfg : Config} {input0 : List Int} {s : State}
    (h : AllInv cfg input0 s) : EOF ∈ s.eseen ↔ (2 ≤ s.epc ∧ s.ec = EOF) := by
  have hn : EOF ∉ s.encrypted := fun hm => h.hB.e_n EOF hm rfl
  rw [h.hB.e_c]
  split_ifs with h1
  · simp [hn]
    constructor
    · intro he
      exact ⟨by omega, he.symm⟩
    · intro he; exact he.2.symm
  · simp [hn]
    intro h2 h3
    apply h1
    by_cases h4 : 4 ≤ s.epc
    · exact Or.inr (Or.inr ⟨h4, h3⟩)
    · omega

theorem AllInv.eof_ostored_iff {cfg : Config} {input0 : List Int} {s : State}
    (h : AllInv cfg input0 s) (hg : ∀ y ∈ s.encrypted, toChar (cfg.encrypt y) ≠ EOF) :
    EOF ∈ s.ostored ↔ (4 ≤ s.epc ∧ s.ec = EOF) := by
  have hn : EOF ∉ s.encrypted.map (fun c => toChar (cfg.encrypt c)) := by
    intro hm
    obtain ⟨x, hx1, hx⟩ := List.mem_map.mp hm
    exact hg x hx1 hx
  rw [h.hB.e_o]
  split_ifs with h1
  · simp [h1]
  · simp only [List.append_nil]
    exact ⟨fun hm => absurd hm hn, fun hc => absurd hc h1⟩

theorem AllInv.ostored_dropLast {cfg : Config} {input0 : List Int} {s : State}
    (h : AllInv cfg input0 s) (hg : ∀ y ∈ s.encrypted, toChar (cfg.encrypt y) ≠ EOF) :
    ∀ x ∈ s.ostored.dropLast, x ≠ EOF := by
  have hn : ∀ x ∈ s.encrypted.map (fun c => toChar (cfg.encrypt c)), x ≠ EOF := by
    intro x hm
    obtain ⟨y, hy1, hy⟩ := List.mem_map.mp hm
    rw [← hy]; exact hg y hy1
  rw [h.hB.e_o]
  split_ifs with h1
  · rw [List.dropLast_concat]; exact hn
  · rw [List.append_nil]
    intro x hx
    exact hn x (List.mem_of_mem_dropLast hx)

/-- The characters `encrypt` was called on are characters of the file, so an `encrypt` that
never returns the end marker on the file never stored one. -/
theorem AllInv.encrypted_ok {cfg : Config} {input0 : List Int} {s : State}
    (h : AllInv cfg input0 s) (hin : ∀ r ∈ input0, toChar r ≠ EOF)
    (henc : ∀ r ∈ input0, toChar (cfg.encrypt (toChar r)) ≠ EOF) :
    ∀ y ∈ s.encrypted, toChar (cfg.encrypt y) ≠ EOF := by
  intro y hy
  have := (h.encrypted_prefix hin).subset hy
  obtain ⟨r, hr, rfl⟩ := List.mem_map.mp this
  exact henc r hr

/-- Without resets, in a state where no stage can step, every stage has returned. -/
theorem blocked_allDone (cfg : Config) (input : List Int) (ib ob : Nat → Int) (c0 : Int)
    (s : State) (hin : ∀ r ∈ input, toChar r ≠ EOF)
    (henc : ∀ r ∈ input, toChar (cfg.encrypt (toChar r)) ≠ EOF)
    (hr : Reach cfg false (init input ib ob c0) s)
    (hb : ∀ t, t ≠ Thread.reset → step cfg t s = none) : allDone s := by
  have h := reach_inv cfg false input ib ob c0 s hr
  have hg := h.encrypted_ok hin henc
  have hN := reach_invN cfg input ib ob c0 s hr
  obtain ⟨a1, a2, a3, a4, a5, a6, a7, a8, a9, a10⟩ := h.hH
  obtain ⟨l1, l2, l3, l4, l5, l6⟩ := h.hLen
  have hx := hN.n_x
  have hbR := reader_blocked cfg s (hb Thread.reader (by decide))
  have hbI := consumer_blocked_i cfg s (hb Thread.inputCounter (by decide))
  have hbE := encryptor_blocked cfg s (hb Thread.encryptor (by decide))
  have hbO := consumer_blocked_o cfg s (hb Thread.outputCounter (by decide))
  have hbW := consumer_blocked_w cfg s (hb Thread.writer (by decide))
  have pI1 : (2 ≤ s.ipc ∧ s.ipc ≤ 4 ∧ s.ic = EOF) ∨ s.ipc = 5 →
      s.iseen.length = s.reads.length := fun hc => by
    rw [eof_mem_prefix_eq (h.hB.i_pre.trans h.istored_prefix) (h.eof_iseen_iff.mpr hc)
      h.reads_dropLast]
  have pI2 : 2 ≤ s.rpc → s.rc = EOF → s.iseen.length = s.reads.length →
      (2 ≤ s.ipc ∧ s.ipc ≤ 4 ∧ s.ic = EOF) ∨ s.ipc = 5 := fun h1 h2 h3 => by
    have := (h.hB.i_pre.trans h.istored_prefix).eq_of_length h3
    rw [← h.eof_iseen_iff, this]
    exact h.eof_reads_iff.mpr ⟨h1, h2⟩
  have pE1 : 2 ≤ s.epc → s.ec = EOF → s.eseen.length = s.reads.length := fun h1 h2 => by
    rw [eof_mem_prefix_eq (h.hB.e_pre.trans h.istored_prefix) (h.eof_eseen_iff.mpr ⟨h1, h2⟩)
      h.reads_dropLast]
  have pE2 : 2 ≤ s.rpc → s.rc = EOF → s.eseen.length = s.reads.length →
      2 ≤ s.epc ∧ s.ec = EOF := fun h1 h2 h3 => by
    have := (h.hB.e_pre.trans h.istored_prefix).eq_of_length h3
    rw [← h.eof_eseen_iff, this]
    exact h.eof_reads_iff.mpr ⟨h1, h2⟩
  have pO1 : (2 ≤ s.opc ∧ s.opc ≤ 4 ∧ s.oc = EOF) ∨ s.opc = 5 →
      s.oseen.length = s.ostored.length := fun hc => by
    rw [eof_mem_prefix_eq hN.o_pre (h.eof_oseen_iff.mpr hc) (h.ostored_dropLast hg)]
  have pO2 : 4 ≤ s.epc → s.ec = EOF → s.oseen.length = s.ostored.length →
      (2 ≤ s.opc ∧ s.opc ≤ 4 ∧ s.oc = EOF) ∨ s.opc = 5 := fun h1 h2 h3 => by
    have := hN.o_pre.eq_of_length h3
    rw [← h.eof_oseen_iff, this]
    exact (h.eof_ostored_iff hg).mpr ⟨h1, h2⟩
  have pW1 : (2 ≤ s.wpc ∧ s.wpc ≤ 4 ∧ s.wc = EOF) ∨ s.wpc = 5 →
      s.wseen.length = s.ostored.length := fun hc => by
    rw [eof_mem_prefix_eq hN.w_pre (h.eof_wseen_iff.mpr hc) (h.ostored_dropLast hg)]
  have pW2 : 4 ≤ s.epc → s.ec = EOF → s.wseen.length = s.ostored.length →
      (2 ≤ s.wpc ∧ s.wpc ≤ 4 ∧ s.wc = EOF) ∨ s.wpc = 5 := fun h1 h2 h3 => by
    have := hN.w_pre.eq_of_length h3
    rw [← h.eof_wseen_iff, this]
    exact (h.eof_ostored_iff hg).mpr ⟨h1, h2⟩
  have p9 := h.hB.r_9
  have p10 := h.hB.e_10
  -- the encryptor is not waiting for an output consumer
  have hE7 : ¬ (s.epc = 7 ∧ s.output_finished_mutex = 0) := by
    have q1 := rng_spec 1 2 s.opc
    have q2 := rng_spec 1 1 s.opc
    have q3 := rng_spec 5 7 s.epc
    have q4 := rng_spec 4 4 s.epc
    clear * - a9 l5 hbO pO1 q1 q2 q3 q4 a4
    omega
  have hE8 : ¬ (s.epc = 8 ∧ s.write_finished_mutex = 0) := by
    have q1 := rng_spec 1 2 s.wpc
    have q2 := rng_spec 1 1 s.wpc
    have q3 := rng_spec 6 8 s.epc
    have q4 := rng_spec 4 5 s.epc
    clear * - a10 l6 hbW pW1 q1 q2 q3 q4 a5
    omega
  have hE : (s.epc = 0 ∧ s.encrypt_mutex = 0) ∨ s.epc = 10 := by
    clear * - hbE hE7 hE8 a3
    omega
  -- the reader is not waiting for an input consumer, nor for the mutex
  have hR0 : ¬ (s.rpc = 0 ∧ s.reader_lock ≠ Lock.free) := fun hc =>
    hc.2 (lock_free_of h.hL (Or.inl hc.1) hx)
  have hR5 : ¬ (s.rpc = 5 ∧ s.input_finished_mutex = 0) := by
    have q1 := rng_spec 1 2 s.ipc
    have q2 := rng_spec 1 1 s.ipc
    have q3 := rng_spec 4 5 s.rpc
    have q4 := rng_spec 3 3 s.rpc
    have q5 := rng_spec 2 2 s.rpc
    clear * - a7 l1 l2 hbI pI1 q1 q2 q3 q4 q5 a2
    omega
  have hR6 : ¬ (s.rpc = 6 ∧ s.encrypt_finished_mutex = 0) := by
    have q1 := rng_spec 1 2 s.epc
    have q2 := rng_spec 1 1 s.epc
    have q3 := rng_spec 5 6 s.rpc
    have q4 := rng_spec 3 4 s.rpc
    have q5 := rng_spec 2 2 s.rpc
    clear * - a8 l1 l3 hE pE1 p10 q1 q2 q3 q4 q5 a3
    omega
  have hR : s.rpc = 9 := by
    rcases hbR with hc | hc | hc | hc
    · exact absurd hc hR0
    · exact absurd hc hR5
    · exact absurd hc hR6
    · omega
  have hrc := p9 hR
  have hI : s.ipc = 5 := by
    have q1 := rng_spec 1 2 s.ipc
    have q2 := rng_spec 1 1 s.ipc
    have q3 := rng_spec 4 5 s.rpc
    have q4 := rng_spec 3 3 s.rpc
    have q5 := rng_spec 2 2 s.rpc
    clear * - a7 l1 l2 hbI pI2 hR hrc q1 q2 q3 q4 q5 a2
    omega
  have hE10 : s.epc = 10 := by
    have q1 := rng_spec 1 2 s.epc
    have q2 := rng_spec 1 1 s.epc
    have q3 := rng_spec 5 6 s.rpc
    have q4 := rng_spec 3 4 s.rpc
    have q5 := rng_spec 2 2 s.rpc
    clear * - a8 l1 l3 hE pE2 hR hrc q1 q2 q3 q4 q5 a3
    omega
  have hec := p10 hE10
  have hO : s.opc = 5 := by
    have q1 := rng_spec 1 2 s.opc
    have q2 := rng_spec 1 1 s.opc
    have q3 := rng_spec 5 7 s.epc
    have q4 := rng_spec 4 4 s.epc
    clear * - a9 l5 hbO pO2 hE10 hec q1 q2 q3 q4 a4
    omega
  have hW : s.wpc = 5 := by
    have q1 := rng_spec 1 2 s.wpc
    have q2 := rng_spec 1 1 s.wpc
    have q3 := rng_spec 6 8 s.epc
    have q4 := rng_spec 4 5 s.epc
    clear * - a10 l6 hbW pW2 hE10 hec q1 q2 q3 q4 a5
    omega
  exact ⟨hR, hI, hE10, hO, hW⟩

theorem AllInv.reads_length {cfg : Config} {input0 : List Int} {s : State}
    (h : AllInv cfg input0 s) : s.reads.length + rng 1 1 s.rpc ≤ input0.length + 1 := by
  have q := rng_spec 1 1 s.rpc
  rcases h.hR with h1 | ⟨_, h1, h2, _⟩
  · have := congrArg List.length h1
    simp only [List.length_append, List.length_map] at this
    omega
  · have := congrArg List.length h1
    simp only [List.length_append, List.length_map, List.length_singleton] at this
    omega

set_option maxHeartbeats 4000000 in
/-- Every step of a stage decreases the termination measure. -/
theorem measure_decreases (cfg : Config) (resets : Bool) (input : List Int)
    (ib ob : Nat → Int) (c0 : Int) (s s' : State) (t : Thread)
    (hr : Reach cfg resets (init input ib ob c0) s) (ht : t ≠ Thread.reset)
    (hs : step cfg t s = some s') : measure input.length s' < measure input.length s := by
  have h := reach_inv cfg resets input ib ob c0 s hr
  obtain ⟨l1, l2, l3, l4, l5, l6⟩ := h.hLen
  have k1 := h.reads_length
  have k2 : s.iseen.length + rng 1 1 s.ipc ≤ input.length + 1 := by
    have := rng_le_one 1 1 s.rpc
    omega
  have k3 : s.eseen.length + rng 1 1 s.epc ≤ input.length + 1 := by
    have := rng_le_one 1 1 s.rpc
    omega
  have k4 : s.oseen.length + rng 1 1 s.opc ≤ input.length + 1 := by
    have := rng_le_one 1 1 s.rpc
    omega
  have k5 : s.wseen.length + rng 1 1 s.wpc ≤ input.length + 1 := by
    have := rng_le_one 1 1 s.rpc
    omega
  clear l1 l2 l3 l4 l5 l6 h hr
  unfold measure
  cases t
  case reset => exact absurd rfl ht
  all_goals
    simp only [step, readerThread, inputCounterThread, encryptorThread, outputCounterThread,
      writerThread] at hs
    split at hs <;> rename_i e <;> (try split at hs) <;> simp at hs <;> subst hs <;>
    simp only [e, rng_lit, wR_lit, wC_lit, wE_lit, Nat.reduceLeDiff, Nat.reduceEqDiff,
      Nat.reduceSub, and_self, and_true, and_false, true_and, false_and, reduceIte,
      List.length_append, List.length_singleton] at * <;>
    omega

/-- Deadlock freedom and termination without reset, on files without the byte 0xFF and for
an `encrypt` whose results on them, stored in a `char`, are not `EOF`.  In every state
reachable without a call of `reset_requested`: if no stage can step then all five stages
have returned, each having read exactly (number of characters + 1) values, one per
iteration, and every handshake semaphore is back at zero; if some stage has not returned
then some stage can step; and every step of a stage decreases `measure`, so no run is
infinite.  (Cursors are unbounded in the model.) -/
theorem deadlock_freedom (cfg : Config) (hn : 0 < cfg.n) (hm : 0 < cfg.m)
    (input : List Int) (ib ob : Nat → Int) (c0 : Int) (s : State)
    (hin : ∀ r ∈ input, toChar r ≠ EOF)
    (henc : ∀ r ∈ input, toChar (cfg.encrypt (toChar r)) ≠ EOF)
    (hr : Reach cfg false (init input ib ob c0) s) :
    ((∀ t, t ≠ Thread.reset → step cfg t s = none) →
      allDone s ∧
      s.reads.length = input.length + 1 ∧ s.iseen.length = input.length + 1 ∧
      s.eseen.length = input.length + 1 ∧ s.oseen.length = input.length + 1 ∧
      s.wseen.length = input.length + 1 ∧
      s.input_mutex = 0 ∧ s.encrypt_mutex = 0 ∧ s.output_mutex = 0 ∧ s.write_mutex = 0 ∧
      s.input_finished_mutex = 0 ∧ s.encrypt_finished_mutex = 0 ∧
      s.output_finished_mutex = 0 ∧ s.write_finished_mutex = 0) ∧
    (¬ allDone s → ∃ t, t ≠ Thread.reset ∧ (step cfg t s).isSome = true) ∧
    (∀ t s', t ≠ Thread.reset → step cfg t s = some s' →
      measure input.length s' < measure input.length s) := by
  have h := reach_inv cfg false input ib ob c0 s hr
  refine ⟨?_, ?_, ?_⟩
  · intro hb
    have hd := blocked_allDone cfg input ib ob c0 s hin henc hr hb
    obtain ⟨f1, f2, f3, f4, f5, f6, f7⟩ := h.done_facts hd
    have hfile := h.reads_of_eof hin (by rw [f1]; simp)
    have hlen : s.reads.length = input.length + 1 := by
      rw [hfile]; simp
    obtain ⟨a1, a2, a3, a4, a5, a6, a7, a8, a9, a10⟩ := h.hH
    obtain ⟨d1, d2, d3, d4, d5⟩ := hd
    simp only [d1, d2, d3, d4, d5, rng_lit, Nat.reduceLeDiff, and_self, and_true, and_false,
      true_and, false_and, reduceIte] at a7 a8 a9 a10
    refine ⟨⟨d1, d2, d3, d4, d5⟩, hlen, by rw [f2, hlen], by rw [f3, hlen], by omega, by omega,
      by omega, by omega, by omega, by omega, by omega, by omega, by omega, by omega⟩
  · intro hnd
    by_contra hc
    apply hnd
    apply blocked_allDone cfg input ib ob c0 s hin henc hr
    intro t ht
    cases hst : step cfg t s with
    | none => rfl
    | some s' => exact absurd ⟨t, ht, by simp [hst]⟩ hc
  · intro t s' ht hs
    exact measure_decreases cfg false input ib ob c0 s s' t hr ht hs

theorem reach_exec_initAB (cfg : Config) (resets : Bool) (sched : List Thread)
    (hs : ∀ t ∈ sched, t = Thread.reset → resets = true) :
    Reach cfg resets (init [65, 66] (fun _ => 0) (fun _ => 0) 0) (exec cfg sched initAB) :=
  exec_reach cfg resets sched initAB initAB hs Reach.start

set_option maxRecDepth 100000 in
/-- Instance of `order_preservation`: the run of `"AB"` with buffer sizes 2 and 2 and `encrypt` = add one ends
with all stages returned, `write_output('B')` then `write_output('C')`, and the end marker
stored last. -/
theorem order_preservation_witness :
    allDone finAB ∧ finAB.written = [66, 67] ∧ finAB.encrypted = [65, 66] ∧
    finAB.ostored = [66, 67, -1] :=
  have h := (order_preservation addOne (by decide) (by decide) [65, 66] (fun _ => 0)
    (fun _ => 0) 0 finAB (by decide)
    (reach_exec_initAB addOne false (roundRobin 35) (by decide))).2.2.2 (by decide)
  ⟨by decide, h.1.trans (by decide), h.2.1.trans (by decide), h.2.2.trans (by decide)⟩

set_option maxRecDepth 100000 in
/-- Instance of `slot_handshake`: when the reader of the run of `"AB"` is about to increment `input_count`
in its first cycle, both input consumers have read the character stored. -/
theorem slot_handshake_witness :
    midAB.rpc = 7 ∧ midAB.istored = [65] ∧ midAB.iseen = midAB.istored ∧
    midAB.eseen = midAB.istored ∧ midAB.input_mutex ≤ 1 :=
  have h := slot_handshake addOne (by decide) (by decide) false [65, 66] (fun _ => 0)
    (fun _ => 0) 0 midAB (reach_exec_initAB addOne false (roundRobin 8) (by decide))
  ⟨by decide, by decide, (h.2.2.2.2.2.2.1 (Or.inr (by decide))).1,
    (h.2.2.2.2.2.2.1 (Or.inr (by decide))).2, h.1.1⟩

set_option maxRecDepth 100000 in
/-- Instance of `count_input_conservation`: in the run of `"AB"` with a reset between the two cycles,
`inputCounterThread` returns after `count_input('A')` and `count_input('B')`; the reset
logged one input and one output character. -/
theorem count_input_conservation_witness :
    resetAB.ipc = 5 ∧ resetAB.logs = [(1, 1)] ∧ resetAB.counted_in = [65, 66] ∧
    resetAB.counted_in.length = 2 :=
  have h := (count_input_conservation addOne (by decide) (by decide) true [65, 66]
    (fun _ => 0) (fun _ => 0) 0 resetAB (by decide)
    (reach_exec_initAB addOne true (cycle1 ++ steps 9 Thread.reset ++ roundRobin 30)
      (by decide))).2.2.2 (by decide)
  ⟨by decide, by decide, h.2.1.trans (by decide), h.2.2⟩

set_option maxRecDepth 100000 in
/-- Witness of C6: while the coordinator, called after the first cycle of `"AB"`, holds
`reader_lock`, the reader is at its `pthread_mutex_lock` and cannot step. -/
theorem reset_excludes_reader_witness :
    heldAB.xpc = 5 ∧ heldAB.reader_lock = Lock.resetter ∧
    (heldAB.rpc = 0 ∨ heldAB.rpc = 9) ∧ readerThread addOne heldAB = none :=
  have h := reset_excludes_reader addOne (by decide) (by decide) [65, 66] (fun _ => 0)
    (fun _ => 0) 0 heldAB
    (reach_exec_initAB addOne true (cycle1 ++ steps 5 Thread.reset) (by decide)) (by decide)
  ⟨by decide, h.1, h.2.1, h.2.2.1⟩

set_option maxRecDepth 100000 in
/-- Counterexample to C7 as stated: after the run of `"AB"` has terminated (cursors at 3, no
`log_counts` call so far), a call of `reset_requested` runs through, leaves both cursors at 0
and has called `log_counts`. -/
theorem reset_after_termination_not_noop :
    allDone finAB ∧ finAB.input_count = 3 ∧ finAB.output_count = 3 ∧ finAB.logs = [] ∧
    (resetCall 8 finAB).map (fun s => (s.input_count, s.output_count, s.logs)) =
      some (0, 0, [(2, 2)]) := by
  decide

set_option maxRecDepth 100000 in
/-- Witness of the amended C7 on the terminated run of `"AB"`. -/
theorem reset_after_termination_witness :
    ∃ s', resetCall 8 finAB = some s' ∧ s'.xpc = 8 ∧ s'.input_count = 0 ∧
      s'.output_count = 0 ∧
      s'.logs = finAB.logs ++ [(finAB.counted_in.length, finAB.counted_out.length)] ∧
      s'.reader_lock = Lock.resetter ∧ allDone s' :=
  (reset_after_termination addOne (by decide) (by decide) [65, 66] (fun _ => 0)
    (fun _ => 0) 0 finAB (reach_exec_initAB addOne true (roundRobin 35) (by decide))
    (by decide) (by decide) (by decide)).2

set_option maxRecDepth 100000 in
/-- Instance of `deadlock_freedom`: the run of `"AB"` ends, with no stage able to step, in the state where
all five stages have returned after three iterations each; and half-way through the first
cycle some stage can step. -/
theorem deadlock_freedom_witness :
    (allDone finAB ∧ finAB.reads.length = 3 ∧ finAB.wseen.length = 3) ∧
    ∃ t, t ≠ Thread.reset ∧ (step addOne t midAB).isSome = true :=
  have h := (deadlock_freedom addOne (by decide) (by decide) [65, 66] (fun _ => 0)
    (fun _ => 0) 0 finAB (by decide) (by decide)
    (reach_exec_initAB addOne false (roundRobin 35) (by decide))).1
    (fun t ht => by cases t <;> first | rfl | exact absurd rfl ht)
  have h' := (deadlock_freedom addOne (by decide) (by decide) [65, 66] (fun _ => 0)
    (fun _ => 0) 0 midAB (by decide) (by decide)
    (reach_exec_initAB addOne false (roundRobin 8) (by decide))).2.1 (by decide)
  ⟨⟨h.1, h.2.1, h.2.2.2.2.2.1⟩, h'⟩

set_option maxRecDepth 100000 in
/-- Evaluation for C4: on `"AB"` with buffer sizes 1 and 2, every step of `raceSched` is
enabled, and the reset that zeroes `output_count` between the encryptor's store of the second
result and the consumers' reads makes `writerThread` and `outputCounterThread` deliver `'B'`
twice and never `'C'`. -/
theorem reset_duplicates_output :
    (run addOne12 raceSched initAB).map
        (fun s => (s.reads, s.ostored, s.written, s.counted_out)) =
      some ([65, 66], [66, 67], [66, 66], [66, 66]) := by
  decide

set_option maxRecDepth 100000 in
/-- Evaluation for C5: on `"AB"` every step of `earlySched` is enabled; the coordinator
passes its four waits and reaches `input_count = 0` (program counter 5) while `'A'` has been
fetched but `count_input`, `count_output` and `write_output` have not been called, the
encryptor has not incremented `output_count` (still 0, program counter 7), and no consuming
stage is at its wait-for-slot-ready point (program counters 4); `log_counts` then sees no
character counted. -/
theorem reset_not_quiescent :
    (run addOne earlySched initAB).map
        (fun s => (s.xpc, s.reads, s.counted_in, s.counted_out, s.written)) =
      some (5, [65], [], [], []) ∧
    (run addOne earlySched initAB).map
        (fun s => (s.output_count, s.ipc, s.epc, s.opc, s.wpc)) =
      some (0, 4, 7, 4, 4) ∧
    (run addOne (earlySched ++ steps 3 Thread.reset) initAB).map (fun s => s.logs) =
      some [(0, 0)] :=
  ⟨rfl, rfl, rfl⟩

set_option maxRecDepth 100000 in
/-- Evaluation for C9: a call of `reset_requested` made before the reader's first cycle takes
`reader_lock` and blocks in `sem_wait(&input_signal)`; no thread can step any more although
no stage has returned. -/
theorem reset_before_first_cycle_hangs :
    run addOne [Thread.reset] initAB = some hungAB ∧
    hungAB.xpc = 1 ∧ hungAB.reader_lock = Lock.resetter ∧ hungAB.input_signal = 0 ∧
    ¬ allDone hungAB ∧ ∀ t, (step addOne t hungAB).isSome = false := by
  refine ⟨rfl, by decide, by decide, by decide, by decide, ?_⟩
  intro t
  cases t <;> rfl

set_option maxRecDepth 100000 in
/-- Evaluation for C10: the real byte 255, stored in a signed `char`, compares equal to
`EOF`.  On the file `0xFF 'B'` all five stages return after the first byte, `'B'` is never
read and nothing is counted or written.  On `"AB"` with an `encrypt` that returns 255,
`outputCounterThread` and `writerThread` return on the first result, nothing is written, and
the encryptor and the reader stay blocked for ever.  With an unsigned `char` the stored end
marker itself no longer compares equal to `EOF`. -/
theorem byte_255_is_taken_for_EOF :
    toChar 255 = EOF ∧
    (allDone finFF ∧ finFF.input = [66] ∧ finFF.reads = [EOF] ∧ finFF.counted_in = [] ∧
      finFF.written = []) ∧
    (fin255.opc = 5 ∧ fin255.wpc = 5 ∧ fin255.reads = [65, 66, EOF] ∧
      fin255.ostored = [EOF, EOF] ∧ fin255.written = [] ∧ fin255.counted_out = [] ∧
      fin255.epc = 7 ∧ fin255.rpc = 6 ∧ ∀ t, (step const255 t fin255).isSome = false) ∧
    toUChar EOF ≠ EOF := by
  refine ⟨by decide, by decide, ⟨by decide, by decide, by decide, by decide, by decide,
    by decide, by decide, by decide, ?_⟩, by decide⟩
  intro t
  cases t <;> rfl

set_option maxRecDepth 100000 in
/-- Evaluation for C1: without reset, on the file `0xFF 'B'` with `encrypt` = add one all
five stages return after the first byte, `'B'` is never read, and neither `encrypt` nor
`write_output` is ever called; on the file `0xC8` with an `encrypt` that returns 66 on a byte
value and 65 on a negative argument, `encrypt` is passed -56 instead of the 200 that
`read_input` returned and `write_output` receives 65, not `encrypt(200)` = 66. -/
theorem order_broken_by_char_conversion :
    (allDone finFF ∧ finFF.input = [66] ∧ finFF.encrypted = [] ∧ finFF.written = []) ∧
    (allDone fin200 ∧ fin200.input = [] ∧ fin200.encrypted = [-56] ∧ fin200.written = [65] ∧
      signEnc.encrypt 200 = 66) := by
  decide

set_option maxRecDepth 100000 in
/-- Evaluation for C2: on `"AB"` with buffer sizes 1 and 2, after `raceSched` the encryptor
passes both of its waits and is about to increment `output_count` (program counter 9) in
the cycle in which it stored `'C'` into `output_buffer[1]`, although neither
`outputCounterThread` nor `writerThread` has read that slot: the reset zeroed
`output_count` in between and both read `output_buffer[0]`, `'B'`, a second time. -/
theorem output_handshake_broken_by_reset :
    (run addOne12 (raceSched ++ steps 2 Thread.encryptor) initAB).map
        (fun s => (s.epc, s.ostored, s.oseen, s.wseen)) =
      some (9, [66, 67], [66, 66], [66, 66]) ∧
    (run addOne12 (raceSched ++ steps 2 Thread.encryptor) initAB).map
        (fun s => (s.output_count, s.output_buffer 0, s.output_buffer 1)) =
      some (0, 66, 67) :=
  ⟨rfl, rfl⟩

set_option maxRecDepth 100000 in
/-- Evaluation for C3: on the file `0xFF 'B'` `inputCounterThread` returns without a single
call of `count_input`, although `read_input` returned the real character 255 and `'B'` is
still unread; and on `"AB"`, after `earlySched` and the rest of `reset_requested`,
`count_input('A')` is called after the `log_counts` of that reset has logged 0 characters
and before `reset_finished`. -/
theorem count_input_broken_by_char_conversion :
    (finFF.ipc = 5 ∧ finFF.input = [66] ∧ finFF.reads = [EOF] ∧ finFF.counted_in = []) ∧
    (run addOne (earlySched ++ steps 3 Thread.reset ++ [Thread.inputCounter]) initAB).map
        (fun s => (s.xpc, s.logs, s.counted_in)) =
      some (8, [(0, 0)], [65]) :=
  ⟨by decide, rfl⟩

set_option maxRecDepth 100000 in
/-- Evaluation for C8: without reset, on the file `0xFE` with `encrypt` = add one the result
255 is stored as the `char` -1; `outputCounterThread` and `writerThread` take it for the end
marker and return, and in the next cycle the encryptor blocks for ever in
`sem_wait(&output_finished_mutex)` (program counter 7): no stage can step and not all stages
have returned.  The same happens on `"AB"` with an `encrypt` that always returns 255, where
the reader stays blocked too. -/
theorem deadlock_by_encrypt_result_255 :
    (fin254.rpc = 9 ∧ fin254.ipc = 5 ∧ fin254.epc = 7 ∧ fin254.opc = 5 ∧ fin254.wpc = 5 ∧
      fin254.ostored = [EOF, EOF] ∧ fin254.written = [] ∧ ¬ allDone fin254 ∧
      ∀ t, t ≠ Thread.reset → (step addOne t fin254).isSome = false) ∧
    (¬ allDone fin255 ∧ ∀ t, t ≠ Thread.reset → (step const255 t fin255).isSome = false) := by
  refine ⟨⟨by decide, by decide, by decide, by decide, by decide, by decide, by decide,
    by decide, ?_⟩, by decide, ?_⟩
  · intro t ht
    cases t <;> first | rfl | exact absurd rfl ht
  · intro t ht
    cases t <;> first | rfl | exact absurd rfl ht

end EncryptDriver
